import Mathlib

/-!
# FIFO and LFU cache stores (`fifo/fifo.go`, `lfu/lfu.go`)

A shallow embedding of the FIFO store and of the LFU store of the cache library and theorems
about them. The FIFO store comes first; the conventions of the LFU store are stated where
its definitions start.

Modelling conventions.

* A Go value of type `interface{}` supplied by a caller is an element of an arbitrary
  type `V`.  The type `entry` is unexported, so a caller outside the package never
  supplies a `*entry`; a list element's `Value` field therefore holds either a `*entry`
  built by `Set` (`Slot.entry`) or a caller value (`Slot.other`), and the type assertion
  `e.Value.(*entry)` succeeds exactly on the former.
* A `*list.Element` is identified by a natural number (`Element.id`), allocated from the
  counter `nextId`; `container/list` is modelled by a Lean list of elements in
  front-to-back order.
* `map[string]*list.Element` is an association list of keys and element identities, read
  through `mapGet`; `mapSet` replaces the pair of a key that is already present.
* `cache.CalcLen` lives outside the two packages under study and is a parameter
  `calcLen : V → Int`; its results are values of Go's `int`, which the theorems that need
  it state with `InRange`.
* Go's `int` is taken at its width on 64-bit platforms, 64 bits. Every addition and
  subtraction on `usedBytes` is followed by `wrap`, the two's complement wrap-around of
  `int` arithmetic; comparisons are exact.
* A call on the store ends in an `Outcome`: it returned or it panicked.
* `onEvicted` is modelled by a flag (is the callback non-nil) and the log `evicted` of
  the `(key, value)` pairs it has been called with, oldest call first; the callback is
  taken to return and not to call back into the store.
-/

namespace Cache

/-! ## Go's `int` -/

/-- The values of Go's `int` (64 bits): from `-2^63` to `2^63 - 1`. -/
def InRange (x : Int) : Prop :=
  -9223372036854775808 ≤ x ∧ x ≤ 9223372036854775807

instance (x : Int) : Decidable (InRange x) := by
  unfold InRange
  infer_instance

/-- The `int` that an addition or subtraction yields when its exact result is `x`: the
value congruent to `x` modulo `2^64` between `-2^63` and `2^63 - 1`. -/
def wrap (x : Int) : Int :=
  (x + 9223372036854775808) % 18446744073709551616 - 9223372036854775808

/-! ## The map from keys to element pointers -/

/-- Map lookup, `m[key]` in its two-result form. -/
def mapGet (m : List (String × Nat)) (key : String) : Option Nat :=
  (m.find? (fun p => p.1 == key)).map Prod.snd

/-- Map deletion, `delete(m, key)`. -/
def mapDelete (m : List (String × Nat)) (key : String) : List (String × Nat) :=
  m.filter (fun p => p.1 != key)

/-- Map assignment, `m[key] = e`. -/
def mapSet (m : List (String × Nat)) (key : String) (e : Nat) : List (String × Nat) :=
  mapDelete m key ++ [(key, e)]

/-! ## The linked list -/

/-- The dynamic content of a list element's `Value` field. -/
inductive Slot (V : Type) where
  | entry (key : String) (value : V)
  | other (value : V)
  deriving DecidableEq, Repr

/-- The caller value inside a slot. -/
def Slot.payload {V : Type} : Slot V → V
  | Slot.entry _ v => v
  | Slot.other v => v

/-- A `list.Element`: its identity and its `Value` field. -/
structure Element (V : Type) where
  id : Nat
  Value : Slot V
  deriving DecidableEq, Repr

/-- Dereference of an element pointer that is on the list. -/
def findElem {V : Type} (l : List (Element V)) (e : Nat) : Option (Element V) :=
  l.find? (fun x => x.id == e)

/-- The method `(*List).Remove`: unlinks `e` when it is on the list. -/
def Remove {V : Type} (l : List (Element V)) (e : Nat) : List (Element V) :=
  l.eraseP (fun x => x.id == e)

/-- The method `(*List).MoveToBack`: no effect when `e` is not on the list. -/
def MoveToBack {V : Type} (l : List (Element V)) (e : Nat) : List (Element V) :=
  match findElem l e with
  | none => l
  | some x => Remove l e ++ [x]

/-- The assignment `e.Value = v`. -/
def setValue {V : Type} (l : List (Element V)) (e : Nat) (v : Slot V) : List (Element V) :=
  l.map (fun x => if x.id == e then { x with Value := v } else x)

/-- The method `(*List).Front`: `nil` on the empty list. -/
def Front {V : Type} (l : List (Element V)) : Option Nat :=
  l.head?.map Element.id

/-! ## The store -/

/-- The struct `fifo`. -/
structure fifo (V : Type) where
  maxBytes : Int
  onEvicted : Bool
  usedBytes : Int
  li : List (Element V)
  cache : List (String × Nat)
  nextId : Nat
  evicted : List (String × V)
  deriving DecidableEq, Repr

/-- The constructor `New`. -/
def New {V : Type} (maxBytes : Int) (onEvicted : Bool) : fifo V :=
  { maxBytes := maxBytes, onEvicted := onEvicted, usedBytes := 0, li := [], cache := [],
    nextId := 0, evicted := [] }

/-- The result of a call that changes the store: the call returned, or it panicked; in
both cases the store is the one left in memory. No method recovers from a panic. -/
inductive Outcome (V : Type) where
  | returned (f : fifo V)
  | panicked (f : fifo V)
  deriving DecidableEq, Repr

/-- The store left in memory. -/
def Outcome.store {V : Type} : Outcome V → fifo V
  | Outcome.returned f => f
  | Outcome.panicked f => f

/-- The method `removeElement`; the argument is `none` for a nil pointer. The pointers it
is called with come from the map or from `Front`, and those are on the list in every
reachable store (`Inv.cache_li`); a pointer that is not is treated like a failed type
assertion. -/
def fifo.removeElement {V : Type} (calcLen : V → Int) (f : fifo V) (e : Option Nat) :
    Outcome V :=
  match e with
  | none => Outcome.returned f
  | some p =>
    match (findElem f.li p).map Element.Value with
    | some (Slot.entry key value) =>
      Outcome.returned { f with
        li := Remove f.li p
        usedBytes := wrap (f.usedBytes - calcLen value)
        cache := mapDelete f.cache key
        evicted := if f.onEvicted then f.evicted ++ [(key, value)] else f.evicted }
    | _ => Outcome.panicked { f with li := Remove f.li p }

/-- The method `DelOldest`. -/
def fifo.DelOldest {V : Type} (calcLen : V → Int) (f : fifo V) : Outcome V :=
  f.removeElement calcLen (Front f.li)

/-- The method `Del`. -/
def fifo.Del {V : Type} (calcLen : V → Int) (f : fifo V) (key : String) : Outcome V :=
  match mapGet f.cache key with
  | some e => f.removeElement calcLen (some e)
  | none => Outcome.returned f

/-- The method `Set`. -/
def fifo.Set {V : Type} (calcLen : V → Int) (f : fifo V) (key : String) (value : V) :
    Outcome V :=
  match mapGet f.cache key with
  | some e =>
    let li := MoveToBack f.li e
    match (findElem li e).map Element.Value with
    | some (Slot.entry _ old) =>
      Outcome.returned { f with
        li := setValue li e (Slot.other value)
        usedBytes := wrap (wrap (f.usedBytes - calcLen old) + calcLen value) }
    | _ => Outcome.panicked { f with li := li }
  | none =>
    let f1 : fifo V := { f with
      li := f.li ++ [{ id := f.nextId, Value := Slot.entry key value }]
      cache := mapSet f.cache key f.nextId
      nextId := f.nextId + 1
      usedBytes := wrap (f.usedBytes + calcLen value) }
    if 0 < f1.maxBytes ∧ f1.maxBytes < f1.usedBytes then f1.DelOldest calcLen
    else Outcome.returned f1

/-- The method `Get`: `some` of the value returned, `none` when the call panics; `nil` is
the nil interface value returned on a miss. The store is not written to. -/
def fifo.Get {V : Type} (nil : V) (f : fifo V) (key : String) : Option V :=
  match mapGet f.cache key with
  | some e =>
    match (findElem f.li e).map Element.Value with
    | some (Slot.entry _ value) => some value
    | _ => none
  | none => some nil

/-- The method `Len`. -/
def fifo.Len {V : Type} (f : fifo V) : Nat :=
  f.li.length

/-! ## Runs and invariants -/

/-- The calls a client can make on a store. -/
inductive Op (V : Type) where
  | set (key : String) (value : V)
  | get (key : String)
  | del (key : String)
  | delOldest
  | len
  deriving DecidableEq, Repr

/-- One call on the store. -/
def fifo.step {V : Type} (calcLen : V → Int) (nil : V) (f : fifo V) : Op V → Outcome V
  | Op.set key value => f.Set calcLen key value
  | Op.get key =>
    match f.Get nil key with
    | some _ => Outcome.returned f
    | none => Outcome.panicked f
  | Op.del key => f.Del calcLen key
  | Op.delOldest => f.DelOldest calcLen
  | Op.len => Outcome.returned f

/-- A sequence of calls, each made on the store left by the one before; the run stops at
the first call that panics. -/
def fifo.run {V : Type} (calcLen : V → Int) (nil : V) (f : fifo V) : List (Op V) → Outcome V
  | [] => Outcome.returned f
  | op :: ops =>
    match f.step calcLen nil op with
    | Outcome.returned f1 => f1.run calcLen nil ops
    | Outcome.panicked f1 => Outcome.panicked f1

/-- The stores reachable from `New` by calls that return. -/
def Reachable {V : Type} (calcLen : V → Int) (nil : V) (f : fifo V) : Prop :=
  ∃ (maxBytes : Int) (onEvicted : Bool) (ops : List (Op V)),
    (New maxBytes onEvicted).run calcLen nil ops = Outcome.returned f

/-- The store built by the insert path of `Set` before the capacity check. -/
def pushed {V : Type} (calcLen : V → Int) (f : fifo V) (key : String) (value : V) : fifo V :=
  { f with
    li := f.li ++ [{ id := f.nextId, Value := Slot.entry key value }]
    cache := mapSet f.cache key f.nextId
    nextId := f.nextId + 1
    usedBytes := wrap (f.usedBytes + calcLen value) }

/-- The sum of `CalcLen` over the values held by the elements of a list. -/
def total {V : Type} (calcLen : V → Int) (l : List (Element V)) : Int :=
  (l.map (fun x => calcLen x.Value.payload)).sum

/-- The representation invariant of a store: element identities are distinct and were
allocated, the map and the list hold the same elements, one key for each, a `*entry` sits
under its own key, and `usedBytes` is the sum of the sizes of the values held, in `int`
arithmetic. -/
structure Inv {V : Type} (calcLen : V → Int) (f : fifo V) : Prop where
  ids_nodup : (f.li.map Element.id).Nodup
  ids_lt : ∀ x ∈ f.li, x.id < f.nextId
  cache_li : ∀ k p, mapGet f.cache k = some p →
    ∃ x ∈ f.li, x.id = p ∧ ∀ k1 v, x.Value = Slot.entry k1 v → k1 = k
  li_cache : ∀ x ∈ f.li, ∃ k, mapGet f.cache k = some x.id
  cache_inj : ∀ k1 k2 p, mapGet f.cache k1 = some p → mapGet f.cache k2 = some p → k1 = k2
  used : f.usedBytes = wrap (total calcLen f.li)

/-! ## Stores and call sequences used in the statements -/

/-- The store after `Set(k, v1)` on a fresh store without capacity limit. -/
def afterSet {V : Type} (calcLen : V → Int) (cb : Bool) (k : String) (v1 : V) : fifo V :=
  { maxBytes := 0, onEvicted := cb, usedBytes := wrap (calcLen v1),
    li := [{ id := 0, Value := Slot.entry k v1 }], cache := [(k, 0)], nextId := 1,
    evicted := [] }

/-- The store after `Set(k, v1); Set(k, v2)` on a fresh store without capacity limit. -/
def afterSetSet {V : Type} (calcLen : V → Int) (cb : Bool) (k : String) (v1 v2 : V) : fifo V :=
  { maxBytes := 0, onEvicted := cb,
    usedBytes := wrap (wrap (wrap (calcLen v1) - calcLen v1) + calcLen v2),
    li := [{ id := 0, Value := Slot.other v2 }], cache := [(k, 0)], nextId := 1,
    evicted := [] }

/-- The store after `Set(a, v); Set(b, w)` on a fresh store without capacity limit, for
distinct keys. -/
def afterSetAB {V : Type} (calcLen : V → Int) (cb : Bool) (a b : String) (v w : V) : fifo V :=
  { maxBytes := 0, onEvicted := cb, usedBytes := wrap (wrap (calcLen v) + calcLen w),
    li := [{ id := 0, Value := Slot.entry a v }, { id := 1, Value := Slot.entry b w }],
    cache := [(a, 0), (b, 1)], nextId := 2, evicted := [] }

/-- One `Set` call per pair, in the order of the list. -/
def setAll {V : Type} (kvs : List (String × V)) : List (Op V) :=
  kvs.map (fun kv => Op.set kv.1 kv.2)

/-- The `*entry` values built from key and value pairs. -/
def entries {V : Type} (kvs : List (String × V)) : List (Slot V) :=
  kvs.map (fun kv => Slot.entry kv.1 kv.2)

/-- A `Set` of `value` on an absent key returns within the capacity: the new total is within
`maxBytes`, or it is once the single eviction of `Set` has removed the front entry (on an
empty list the eviction removes the new element itself). The totals are those that the
code computes, in `int` arithmetic. -/
def fits {V : Type} (calcLen : V → Int) (f : fifo V) (value : V) : Prop :=
  wrap (f.usedBytes + calcLen value) ≤ f.maxBytes ∨
    match f.li with
    | [] => True
    | x :: _ => wrap (f.usedBytes + calcLen value - calcLen x.Value.payload) ≤ f.maxBytes

instance {V : Type} (calcLen : V → Int) (f : fifo V) (value : V) :
    Decidable (fits calcLen f value) := by
  unfold fits
  cases f.li <;> infer_instance

/-- Every `Set` of the sequence is on a key absent from the map at that time, and its value
`fits`. -/
def insertsFit {V : Type} (calcLen : V → Int) : fifo V → List (String × V) → Prop
  | _, [] => True
  | f, kv :: kvs =>
    mapGet f.cache kv.1 = none ∧ fits calcLen f kv.2 ∧
      insertsFit calcLen (f.Set calcLen kv.1 kv.2).store kvs

/-- The check of `insertsFit`, call by call. -/
def insertsFit.dec {V : Type} (calcLen : V → Int) :
    (f : fifo V) → (kvs : List (String × V)) → Decidable (insertsFit calcLen f kvs)
  | _, [] => isTrue trivial
  | f, kv :: kvs =>
    have := insertsFit.dec calcLen (f.Set calcLen kv.1 kv.2).store kvs
    by unfold insertsFit; infer_instance

instance {V : Type} (calcLen : V → Int) (f : fifo V) (kvs : List (String × V)) :
    Decidable (insertsFit calcLen f kvs) :=
  insertsFit.dec calcLen f kvs

/-- Every element of the list holds a `*entry`. -/
def AllEntries {V : Type} (f : fifo V) : Prop :=
  ∀ x ∈ f.li, ∃ k v, x.Value = Slot.entry k v

/-- Is the call a `Get`. -/
def Op.isGet {V : Type} : Op V → Bool
  | Op.get _ => true
  | _ => false

/-- A sequence of calls with its `Get` calls left out. -/
def dropGets {V : Type} (ops : List (Op V)) : List (Op V) :=
  ops.filter (fun op => !op.isGet)

/-!
## The LFU store (`lfu/lfu.go`)

`lfu.go` uses the types `entry` and `queue` of its package, whose declarations and methods
(`entry.Len`, and `queue.Len`, `queue.Less`, `queue.Swap`, `queue.Push`, `queue.Pop`, the
methods `container/heap` asks for) are in a file that is not among the sources. They are
modelled from the specification. The functions of `container/heap` are those of the Go
standard library. A `*entry` is identified by a natural number (`entry.id`); the heap array
holds the entries and the map holds their identities. A call that panics returns `none`.
-/

/-- Modelled from the spec: the struct `entry` of package `lfu`, declared outside `lfu.go`.
"Entry: a key, an opaque value, and policy-specific metadata": `weight`, "an integer
priority used solely for heap ordering", and `index`, "the entry's current slot in the heap
array". `id` is the identity of the pointer. -/
structure entry (V : Type) where
  id : Nat
  key : String
  value : V
  weight : Int
  index : Nat
  deriving DecidableEq, Repr

/-- Modelled from the spec: the method `entry.Len` of package `lfu`, declared outside
`lfu.go`: the size of the value ("usedBytes: running total of value sizes currently held
(key size excluded)"). -/
def entry.Len {V : Type} (calcLen : V → Int) (e : entry V) : Int :=
  calcLen e.value

/-- Modelled from the spec: the type `queue` of package `lfu`, declared outside `lfu.go`: the
array of an "array-backed binary heap where each entry carries its current slot index". -/
abbrev queue (V : Type) : Type := List (entry V)

/-- Modelled from the spec: the method `queue.Len`, declared outside `lfu.go`: the number of
entries in the heap array. -/
def queue.Len {V : Type} (q : queue V) : Nat :=
  q.length

/-- Modelled from the spec: the method `queue.Less`, declared outside `lfu.go`: the heap is
a "min-heap over `weight`", "lower weight evicts first". `none` is the panic of an index out
of range. -/
def queue.Less {V : Type} (q : queue V) (i j : Nat) : Option Bool :=
  match q[i]?, q[j]? with
  | some a, some b => some (decide (a.weight < b.weight))
  | _, _ => none

/-- Modelled from the spec: the method `queue.Swap`, declared outside `lfu.go`: exchanges two
slots; "the heap must maintain each entry's slot number as items move". `none` is the panic
of an index out of range. -/
def queue.Swap {V : Type} (q : queue V) (i j : Nat) : Option (queue V) :=
  match q[i]?, q[j]? with
  | some a, some b => some ((q.set i { b with index := i }).set j { a with index := j })
  | _, _ => none

/-- Modelled from the spec: the method `queue.Push`, declared outside `lfu.go`: appends the
entry, whose slot is the former length. -/
def queue.Push {V : Type} (q : queue V) (x : entry V) : queue V :=
  q ++ [{ x with index := q.length }]

/-- Modelled from the spec: the method `queue.Pop`, declared outside `lfu.go`: removes and
returns the last entry of the array. `none` is the panic on an empty array. -/
def queue.Pop {V : Type} (q : queue V) : Option (entry V × queue V) :=
  match q.getLast? with
  | some en => some (en, q.dropLast)
  | none => none

/-- The loop of `up` in `container/heap`. The position `j` decreases at every turn, so the
fuel `j + 1` given by `heapUp` is enough (`heapUpLoop_fuel`). -/
def heapUpLoop {V : Type} : Nat → queue V → Nat → Option (queue V)
  | 0, q, _ => some q
  | fuel + 1, q, j =>
    let i := (j - 1) / 2
    if i = j then some q
    else
      match queue.Less q j i with
      | none => none
      | some false => some q
      | some true =>
        match queue.Swap q i j with
        | none => none
        | some q1 => heapUpLoop fuel q1 i

/-- The function `up` of `container/heap`. -/
def heapUp {V : Type} (q : queue V) (j : Nat) : Option (queue V) :=
  heapUpLoop (j + 1) q j

/-- The loop of `down` in `container/heap`; the result holds the last position. The position
`i` increases at every turn and stays below `n`, so the fuel `n` given by `heapDown` is
enough (`heapDownLoop_fuel`). -/
def heapDownLoop {V : Type} : Nat → queue V → Nat → Nat → Option (queue V × Nat)
  | 0, q, i, _ => some (q, i)
  | fuel + 1, q, i, n =>
    let j1 := 2 * i + 1
    if n ≤ j1 then some (q, i)
    else
      let j2 := j1 + 1
      match (if j2 < n then queue.Less q j2 j1 else some false) with
      | none => none
      | some right =>
        let j := if right then j2 else j1
        match queue.Less q j i with
        | none => none
        | some false => some (q, i)
        | some true =>
          match queue.Swap q i j with
          | none => none
          | some q1 => heapDownLoop fuel q1 j n

/-- The function `down` of `container/heap`: the array, and whether the element moved. -/
def heapDown {V : Type} (q : queue V) (i0 n : Nat) : Option (queue V × Bool) :=
  (heapDownLoop n q i0 n).map (fun r => (r.1, decide (i0 < r.2)))

/-- The function `heap.Push`. -/
def heapPush {V : Type} (q : queue V) (x : entry V) : Option (queue V) :=
  heapUp (queue.Push q x) (queue.Len (queue.Push q x) - 1)

/-- The function `heap.Pop`: the entry removed and the array left. On an empty array
`Swap(0, -1)` panics. -/
def heapPop {V : Type} (q : queue V) : Option (entry V × queue V) :=
  if queue.Len q = 0 then none
  else
    match queue.Swap q 0 (queue.Len q - 1) with
    | none => none
    | some q1 =>
      match heapDown q1 0 (queue.Len q - 1) with
      | none => none
      | some r => queue.Pop r.1

/-- The function `heap.Remove`: the entry removed and the array left. -/
def heapRemove {V : Type} (q : queue V) (i : Nat) : Option (entry V × queue V) :=
  if queue.Len q = 0 then none
  else if queue.Len q - 1 = i then queue.Pop q
  else
    match queue.Swap q i (queue.Len q - 1) with
    | none => none
    | some q1 =>
      match heapDown q1 i (queue.Len q - 1) with
      | none => none
      | some r =>
        match (if r.2 then some r.1 else heapUp r.1 i) with
        | none => none
        | some q2 => queue.Pop q2

/-- The function `heap.Fix`. -/
def heapFix {V : Type} (q : queue V) (i : Nat) : Option (queue V) :=
  match heapDown q i (queue.Len q) with
  | none => none
  | some r => if r.2 then some r.1 else heapUp r.1 i

/-- Dereference of an entry pointer that is in the heap array. -/
def findEntry {V : Type} (q : queue V) (en : Nat) : Option (entry V) :=
  q.find? (fun x => x.id == en)

/-- The method `queue.update`. The pointers it is called with come from the map, and those
are in the heap array in every reachable store (`LInv.cache_q`); a pointer that is not is
treated as a panic. -/
def queue.update {V : Type} (q : queue V) (en : Nat) (value : V) (weight : Int) :
    Option (queue V) :=
  let q1 := q.map (fun x => if x.id == en then { x with value := value, weight := weight } else x)
  match findEntry q1 en with
  | some e => heapFix q1 e.index
  | none => none

/-- The struct `lfu`; `onEvicted` and `evicted` are as in `fifo`. -/
structure lfu (V : Type) where
  maxBytes : Int
  onEvicted : Bool
  usedBytes : Int
  queue : List (entry V)
  cache : List (String × Nat)
  nextId : Nat
  evicted : List (String × V)
  deriving DecidableEq, Repr

/-- The constructor `New` of package `lfu`. -/
def lfu.New {V : Type} (maxBytes : Int) (onEvicted : Bool) : lfu V :=
  { maxBytes := maxBytes, onEvicted := onEvicted, usedBytes := 0, queue := [], cache := [],
    nextId := 0, evicted := [] }

/-- The method `lfu.removeElement`; the argument is `none` for a nil interface. -/
def lfu.removeElement {V : Type} (calcLen : V → Int) (l : lfu V) (x : Option (entry V)) :
    lfu V :=
  match x with
  | none => l
  | some en =>
    { l with
      cache := mapDelete l.cache en.key
      usedBytes := wrap (l.usedBytes - entry.Len calcLen en)
      evicted := if l.onEvicted then l.evicted ++ [(en.key, en.value)] else l.evicted }

/-- The method `lfu.Set`. -/
def lfu.Set {V : Type} (calcLen : V → Int) (l : lfu V) (key : String) (value : V) :
    Option (lfu V) :=
  match mapGet l.cache key with
  | some p =>
    match findEntry l.queue p with
    | none => none
    | some e =>
      match queue.update l.queue p value e.weight with
      | none => none
      | some q =>
        some { l with
          usedBytes := wrap (wrap (l.usedBytes - calcLen e.value) + calcLen value)
          queue := q }
  | none =>
    let en : entry V := { id := l.nextId, key := key, value := value, weight := 0, index := 0 }
    match heapPush l.queue en with
    | none => none
    | some q =>
      let l1 : lfu V := { l with
        queue := q
        cache := mapSet l.cache key l.nextId
        nextId := l.nextId + 1
        usedBytes := wrap (l.usedBytes + entry.Len calcLen en) }
      if 0 < l1.maxBytes ∧ l1.maxBytes < l1.usedBytes then
        match heapPop l1.queue with
        | none => none
        | some r => some (lfu.removeElement calcLen { l1 with queue := r.2 } (some r.1))
      else some l1

/-- The method `lfu.Get`: the value returned and the store left; `nil` is the nil interface
value returned on a miss. -/
def lfu.Get {V : Type} (nil : V) (l : lfu V) (key : String) : Option (V × lfu V) :=
  match mapGet l.cache key with
  | some p =>
    match findEntry l.queue p with
    | none => none
    | some e =>
      match queue.update l.queue p e.value e.weight with
      | none => none
      | some q => some (e.value, { l with queue := q })
  | none => some (nil, l)

/-- The method `lfu.Del`. -/
def lfu.Del {V : Type} (calcLen : V → Int) (l : lfu V) (key : String) : Option (lfu V) :=
  match mapGet l.cache key with
  | some p =>
    match findEntry l.queue p with
    | none => none
    | some e =>
      match heapRemove l.queue e.index with
      | none => none
      | some r => some (lfu.removeElement calcLen { l with queue := r.2 } (some e))
  | none => some l

/-- The method `lfu.DelOldest`. -/
def lfu.DelOldest {V : Type} (calcLen : V → Int) (l : lfu V) : Option (lfu V) :=
  if queue.Len l.queue = 0 then some l
  else
    match heapPop l.queue with
    | none => none
    | some r => some (lfu.removeElement calcLen { l with queue := r.2 } (some r.1))

/-- The method `lfu.Len`. -/
def lfu.Len {V : Type} (l : lfu V) : Nat :=
  queue.Len l.queue

/-- One call on the LFU store; `none` when the call panics. -/
def lfu.step {V : Type} (calcLen : V → Int) (nil : V) (l : lfu V) : Op V → Option (lfu V)
  | Op.set key value => l.Set calcLen key value
  | Op.get key => (l.Get nil key).map Prod.snd
  | Op.del key => l.Del calcLen key
  | Op.delOldest => l.DelOldest calcLen
  | Op.len => some l

/-- A sequence of calls on the LFU store; `none` as soon as a call panics. -/
def lfu.run {V : Type} (calcLen : V → Int) (nil : V) (l : lfu V) : List (Op V) → Option (lfu V)
  | [] => some l
  | op :: ops =>
    match l.step calcLen nil op with
    | some l1 => l1.run calcLen nil ops
    | none => none

/-- The LFU stores reachable from `lfu.New` by calls that return. -/
def lfu.Reachable {V : Type} (calcLen : V → Int) (nil : V) (l : lfu V) : Prop :=
  ∃ (maxBytes : Int) (onEvicted : Bool) (ops : List (Op V)),
    (lfu.New maxBytes onEvicted).run calcLen nil ops = some l

/-- The representation invariant of an LFU store: every entry's `index` is its slot, every
weight is 0, entry identities are distinct and were allocated, and the map and the heap
array hold the same entries, each under its own key. -/
structure LInv {V : Type} (l : lfu V) : Prop where
  idx : ∀ (i : Nat) (e : entry V), l.queue[i]? = some e → e.index = i
  w0 : ∀ (i : Nat) (e : entry V), l.queue[i]? = some e → e.weight = 0
  ids_inj : ∀ (i j : Nat) (a b : entry V), l.queue[i]? = some a → l.queue[j]? = some b →
    a.id = b.id → i = j
  ids_lt : ∀ (i : Nat) (e : entry V), l.queue[i]? = some e → e.id < l.nextId
  cache_q : ∀ k p, mapGet l.cache k = some p →
    ∃ (i : Nat) (e : entry V), l.queue[i]? = some e ∧ e.id = p ∧ e.key = k
  q_cache : ∀ (i : Nat) (e : entry V), l.queue[i]? = some e →
    mapGet l.cache e.key = some e.id

/-- The store built by the insert path of `lfu.Set` before the capacity check, when the
push leaves the new entry in the last slot. -/
def lfu.pushed {V : Type} (calcLen : V → Int) (l : lfu V) (key : String) (value : V) : lfu V :=
  { l with
    queue := l.queue ++
      [{ id := l.nextId, key := key, value := value, weight := 0, index := l.queue.length }]
    cache := mapSet l.cache key l.nextId
    nextId := l.nextId + 1
    usedBytes := wrap (l.usedBytes + calcLen value) }

/-- The heap array after the assignments of `queue.update`. -/
def assigned {V : Type} (q : queue V) (en : Nat) (value : V) (weight : Int) : queue V :=
  q.map (fun x => if x.id == en then { x with value := value, weight := weight } else x)

/-- The min-heap property of the array: no entry weighs less than its parent. -/
def IsMinHeap {V : Type} (q : queue V) : Prop :=
  ∀ (j : Nat) (a b : entry V), q[j]? = some a → q[(j - 1) / 2]? = some b → b.weight ≤ a.weight

/-- Every weight in the heap array is 0. -/
def AllZero {V : Type} (q : queue V) : Prop :=
  ∀ (i : Nat) (e : entry V), q[i]? = some e → e.weight = 0

/-- The heap array left when slot `i` is removed by exchanging it with the last slot. -/
def swapRemove {V : Type} (q : queue V) (i : Nat) : queue V :=
  match q.getLast? with
  | none => q
  | some b => (q.set i { b with index := i }).dropLast

/-! ## Facts about `int` arithmetic -/

theorem wrap_of_inRange {x : Int} (h : InRange x) : wrap x = x := by
  unfold InRange at h
  unfold wrap
  omega

theorem inRange_wrap (x : Int) : InRange (wrap x) := by
  unfold InRange wrap
  omega

theorem wrap_wrap (x : Int) : wrap (wrap x) = wrap x := by
  unfold wrap
  omega

theorem wrap_wrap_add (a b : Int) : wrap (wrap a + b) = wrap (a + b) := by
  unfold wrap
  omega

theorem wrap_wrap_sub (a b : Int) : wrap (wrap a - b) = wrap (a - b) := by
  unfold wrap
  omega

theorem wrap_zero : wrap 0 = 0 := by
  decide

/-! ## Facts about the map -/

theorem mapGet_cons (p : String × Nat) (m : List (String × Nat)) (k : String) :
    mapGet (p :: m) k = if p.1 = k then some p.2 else mapGet m k := by
  by_cases h : p.1 = k <;> simp [mapGet, List.find?_cons, h]

theorem mapDelete_cons (p : String × Nat) (m : List (String × Nat)) (k : String) :
    mapDelete (p :: m) k = if p.1 = k then mapDelete m k else p :: mapDelete m k := by
  by_cases h : p.1 = k <;> simp [mapDelete, List.filter_cons, h]

theorem mapGet_mapDelete_self (m : List (String × Nat)) (k : String) :
    mapGet (mapDelete m k) k = none := by
  induction m with
  | nil => rfl
  | cons p m ih =>
    rw [mapDelete_cons]
    split_ifs with h
    · exact ih
    · rw [mapGet_cons, if_neg h]; exact ih

theorem mapGet_mapDelete_ne (m : List (String × Nat)) {k k' : String} (h : k' ≠ k) :
    mapGet (mapDelete m k) k' = mapGet m k' := by
  induction m with
  | nil => rfl
  | cons p m ih =>
    rw [mapDelete_cons, mapGet_cons]
    split_ifs with h1 h2 h2
    · exact absurd (h2.symm.trans h1) h
    · exact ih
    · rw [mapGet_cons, if_pos h2]
    · rw [mapGet_cons, if_neg h2]; exact ih

theorem mapGet_append (m m' : List (String × Nat)) (k : String) :
    mapGet (m ++ m') k = (mapGet m k).or (mapGet m' k) := by
  induction m with
  | nil => simp [mapGet]
  | cons p m ih =>
    rw [List.cons_append, mapGet_cons, mapGet_cons]
    split_ifs with h
    · rfl
    · exact ih

theorem mapGet_mapSet_self (m : List (String × Nat)) (k : String) (e : Nat) :
    mapGet (mapSet m k e) k = some e := by
  rw [mapSet, mapGet_append, mapGet_mapDelete_self, mapGet_cons, if_pos rfl]
  rfl

theorem mapGet_mapSet_ne (m : List (String × Nat)) {k k' : String} (e : Nat) (h : k' ≠ k) :
    mapGet (mapSet m k e) k' = mapGet m k' := by
  rw [mapSet, mapGet_append, mapGet_mapDelete_ne m h, mapGet_cons, if_neg (Ne.symm h)]
  cases mapGet m k' <;> rfl

theorem mapDelete_of_absent (m : List (String × Nat)) (k : String) (h : mapGet m k = none) :
    mapDelete m k = m := by
  induction m with
  | nil => rfl
  | cons p m ih =>
    rw [mapGet_cons] at h
    split_ifs at h with h1
    rw [mapDelete_cons, if_neg h1, ih h]

/-! ## Facts about the list -/

section ListFacts
variable {V : Type}

theorem findElem_cons (x : Element V) (l : List (Element V)) (p : Nat) :
    findElem (x :: l) p = if x.id = p then some x else findElem l p := by
  by_cases h : x.id = p <;> simp [findElem, List.find?_cons, h]

theorem Remove_cons (x : Element V) (l : List (Element V)) (p : Nat) :
    Remove (x :: l) p = if x.id = p then l else x :: Remove l p := by
  by_cases h : x.id = p <;> simp [Remove, List.eraseP_cons, h]

theorem findElem_some {l : List (Element V)} {p : Nat} {x : Element V}
    (h : findElem l p = some x) : x ∈ l ∧ x.id = p := by
  induction l with
  | nil => simp [findElem] at h
  | cons y l ih =>
    rw [findElem_cons] at h
    split_ifs at h with h1
    · cases h; exact ⟨List.mem_cons_self _ _, h1⟩
    · exact ⟨List.mem_cons_of_mem _ (ih h).1, (ih h).2⟩

theorem findElem_none {l : List (Element V)} {p : Nat} :
    findElem l p = none ↔ ∀ x ∈ l, x.id ≠ p := by
  induction l with
  | nil => simp [findElem]
  | cons y l ih =>
    rw [findElem_cons]
    split_ifs with h1
    · simp [h1]
    · simp [ih, h1]

theorem findElem_of_mem {l : List (Element V)} (hn : (l.map Element.id).Nodup)
    {x : Element V} (hx : x ∈ l) : findElem l x.id = some x := by
  induction l with
  | nil => cases hx
  | cons y l ih =>
    rw [List.map_cons, List.nodup_cons] at hn
    rw [findElem_cons]
    rcases List.mem_cons.1 hx with rfl | h
    · rw [if_pos rfl]
    · have : y.id ≠ x.id := fun e => hn.1 (e ▸ List.mem_map_of_mem _ h)
      rw [if_neg this]; exact ih hn.2 h

theorem Remove_eq_filter {l : List (Element V)} (hn : (l.map Element.id).Nodup) (p : Nat) :
    Remove l p = l.filter (fun x => x.id != p) := by
  induction l with
  | nil => rfl
  | cons y l ih =>
    rw [List.map_cons, List.nodup_cons] at hn
    rw [Remove_cons]
    split_ifs with h1
    · have : ∀ z ∈ l, (fun x : Element V => x.id != p) z = true := by
        intro z hz
        have : z.id ≠ y.id := fun e => hn.1 (e ▸ List.mem_map_of_mem _ hz)
        simpa [h1] using this
      simp [List.filter_cons, h1, List.filter_eq_self.2 this]
    · simp [List.filter_cons, h1, ih hn.2]

theorem perm_cons_Remove {l : List (Element V)} {p : Nat} {x : Element V}
    (h : findElem l p = some x) : l.Perm (x :: Remove l p) := by
  induction l with
  | nil => simp [findElem] at h
  | cons y l ih =>
    rw [findElem_cons] at h
    rw [Remove_cons]
    split_ifs at h ⊢ with h1
    · cases h; exact List.Perm.refl _
    · exact ((ih h).cons y).trans (List.Perm.swap x y _)

end ListFacts

/-! ## The invariant is kept by every call -/

section Invariant
variable {V : Type} {calcLen : V → Int}

theorem eq_of_id_eq {l : List (Element V)} (hn : (l.map Element.id).Nodup)
    {x y : Element V} (hx : x ∈ l) (hy : y ∈ l) (h : x.id = y.id) : x = y := by
  have h1 := findElem_of_mem hn hx
  have h2 := findElem_of_mem hn hy
  rw [h, h2] at h1
  exact (Option.some.inj h1).symm

theorem mem_Remove {l : List (Element V)} (hn : (l.map Element.id).Nodup) {p : Nat}
    {y : Element V} : y ∈ Remove l p ↔ y ∈ l ∧ y.id ≠ p := by
  rw [Remove_eq_filter hn, List.mem_filter]
  simp

theorem total_Remove (calcLen : V → Int) {l : List (Element V)} {p : Nat} {x : Element V}
    (h : findElem l p = some x) :
    total calcLen l = calcLen x.Value.payload + total calcLen (Remove l p) := by
  have := ((perm_cons_Remove h).map (fun x => calcLen x.Value.payload)).sum_eq
  simpa [total] using this

theorem total_append_singleton (l : List (Element V)) (x : Element V) :
    total calcLen (l ++ [x]) = total calcLen l + calcLen x.Value.payload := by
  simp [total]

theorem Remove_ids_nodup {l : List (Element V)} (hn : (l.map Element.id).Nodup) (p : Nat) :
    ((Remove l p).map Element.id).Nodup := by
  rw [Remove_eq_filter hn]
  exact hn.sublist ((List.filter_sublist l).map _)

theorem Inv_New (calcLen : V → Int) (maxBytes : Int) (onEvicted : Bool) :
    Inv calcLen (New maxBytes onEvicted : fifo V) := by
  constructor <;> simp [New, mapGet, total, wrap_zero]

theorem Inv_key_of_entry {f : fifo V} (h : Inv calcLen f) {x : Element V} (hx : x ∈ f.li)
    {k : String} {v : V} (hv : x.Value = Slot.entry k v) : mapGet f.cache k = some x.id := by
  obtain ⟨k3, h3⟩ := h.li_cache x hx
  obtain ⟨y, hy, hid, hkey⟩ := h.cache_li k3 _ h3
  have : y = x := eq_of_id_eq h.ids_nodup hy hx hid
  subst this
  rw [hkey k v hv]; exact h3

theorem Inv_removeElement {f f1 : fifo V} (h : Inv calcLen f) {e : Option Nat}
    (he : f.removeElement calcLen e = Outcome.returned f1) : Inv calcLen f1 := by
  cases e with
  | none => simp only [fifo.removeElement, Outcome.returned.injEq] at he; subst he; exact h
  | some p =>
    unfold fifo.removeElement at he
    cases hf : findElem f.li p with
    | none => simp [hf] at he
    | some x =>
      obtain ⟨hx, hid⟩ := findElem_some hf
      cases hv : x.Value with
      | other v => simp [hf, hv] at he
      | entry k v =>
        simp only [hf, hv, Option.map_some', Outcome.returned.injEq] at he
        subst he
        have hk := Inv_key_of_entry h hx hv
        rw [hid] at hk
        have hdel : ∀ k2 q, mapGet (mapDelete f.cache k) k2 = some q →
            k2 ≠ k ∧ mapGet f.cache k2 = some q := by
          intro k2 q h2
          have hne : k2 ≠ k := by
            rintro rfl
            simp [mapGet_mapDelete_self] at h2
          exact ⟨hne, by simpa only [mapGet_mapDelete_ne _ hne] using h2⟩
        refine ⟨Remove_ids_nodup h.ids_nodup p, ?_, ?_, ?_, ?_, ?_⟩
        · intro y hy
          exact h.ids_lt y ((mem_Remove h.ids_nodup).1 hy).1
        · intro k2 p2 h2
          have hne : k2 ≠ k := by
            rintro rfl
            simp [mapGet_mapDelete_self] at h2
          simp only [mapGet_mapDelete_ne _ hne] at h2
          obtain ⟨y, hy, hyid, hkey⟩ := h.cache_li k2 p2 h2
          refine ⟨y, (mem_Remove h.ids_nodup).2 ⟨hy, ?_⟩, hyid, hkey⟩
          intro hyp
          have : y = x := eq_of_id_eq h.ids_nodup hy hx (hyp.trans hid.symm)
          subst this
          exact hne (hkey k v hv).symm
        · intro y hy
          obtain ⟨hy1, hy2⟩ := (mem_Remove h.ids_nodup).1 hy
          obtain ⟨k2, h2⟩ := h.li_cache y hy1
          refine ⟨k2, ?_⟩
          have hne : k2 ≠ k := by
            rintro rfl
            rw [hk] at h2
            exact hy2 (Option.some.inj h2).symm
          simpa [mapGet_mapDelete_ne _ hne] using h2
        · intro k1 k2 q h1 h2
          exact h.cache_inj k1 k2 q (hdel k1 q h1).2 (hdel k2 q h2).2
        · have := total_Remove calcLen hf
          simp only [hv, Slot.payload] at this
          simp only [h.used, this, wrap_wrap_sub]
          congr 1
          ring

end Invariant
section SetFacts
variable {V : Type} {calcLen : V → Int}

theorem findElem_MoveToBack {l : List (Element V)} (hn : (l.map Element.id).Nodup) {p : Nat}
    {x : Element V} (hf : findElem l p = some x) : findElem (MoveToBack l p) p = some x := by
  have hnone : findElem (Remove l p) p = none :=
    findElem_none.2 (fun y hy => ((mem_Remove hn).1 hy).2)
  have happ : findElem (Remove l p ++ [x]) p = some x := by
    unfold findElem at hnone ⊢
    rw [List.find?_append, hnone, Option.none_or]
    simp [List.find?_cons, (findElem_some hf).2]
  simpa only [MoveToBack, hf] using happ

theorem setValue_MoveToBack {l : List (Element V)} (hn : (l.map Element.id).Nodup) {p : Nat}
    {x : Element V} (hf : findElem l p = some x) (v : Slot V) :
    setValue (MoveToBack l p) p v = Remove l p ++ [{ id := p, Value := v }] := by
  have hid := (findElem_some hf).2
  have hrest : (Remove l p).map (fun y => if y.id == p then { y with Value := v } else y)
      = Remove l p := by
    conv_rhs => rw [← List.map_id (Remove l p)]
    apply List.map_congr_left
    intro y hy
    have := ((mem_Remove hn).1 hy).2
    simp [this]
  simp only [MoveToBack, hf, setValue, List.map_append, hrest]
  simp [hid]

/-- The update path of `Set`, when the element still holds a `*entry`. -/
theorem Set_update {f : fifo V} (h : Inv calcLen f) {key : String} {p : Nat} {x : Element V}
    (hk : mapGet f.cache key = some p) (hf : findElem f.li p = some x)
    {k : String} {old : V} (hv : x.Value = Slot.entry k old) (value : V) :
    f.Set calcLen key value = Outcome.returned { f with
      li := Remove f.li p ++ [{ id := p, Value := Slot.other value }]
      usedBytes := wrap (wrap (f.usedBytes - calcLen old) + calcLen value) } := by
  simp only [fifo.Set, hk, findElem_MoveToBack h.ids_nodup hf, Option.map_some', hv,
    setValue_MoveToBack h.ids_nodup hf]

/-- The update path of `Set`, when the element no longer holds a `*entry`: the type
assertion panics. -/
theorem Set_update_other {f : fifo V} (h : Inv calcLen f) {key : String} {p : Nat}
    {x : Element V} (hk : mapGet f.cache key = some p) (hf : findElem f.li p = some x)
    {w : V} (hv : x.Value = Slot.other w) (value : V) :
    f.Set calcLen key value = Outcome.panicked { f with li := Remove f.li p ++ [x] } := by
  simp only [fifo.Set, hk, findElem_MoveToBack h.ids_nodup hf, Option.map_some', hv]
  simp only [MoveToBack, hf]

theorem Set_insert (calcLen : V → Int) {f : fifo V} {key : String}
    (hk : mapGet f.cache key = none) (value : V) :
    f.Set calcLen key value =
      if 0 < f.maxBytes ∧ f.maxBytes < wrap (f.usedBytes + calcLen value)
      then (pushed calcLen f key value).DelOldest calcLen
      else Outcome.returned (pushed calcLen f key value) := by
  simp only [fifo.Set, hk, pushed]

theorem Inv_pushed {f : fifo V} (h : Inv calcLen f) {key : String}
    (hk : mapGet f.cache key = none) (value : V) : Inv calcLen (pushed calcLen f key value) := by
  have hfresh : ∀ y ∈ f.li, y.id ≠ f.nextId := fun y hy => Nat.ne_of_lt (h.ids_lt y hy)
  have hold : ∀ k2, mapGet f.cache k2 ≠ some f.nextId := by
    intro k2 h2
    obtain ⟨y, hy, hyid, _⟩ := h.cache_li k2 _ h2
    exact hfresh y hy hyid
  refine ⟨?_, ?_, ?_, ?_, ?_, ?_⟩
  · simp only [Cache.pushed, List.map_append, List.map_cons, List.map_nil]
    refine List.Nodup.append h.ids_nodup (List.nodup_singleton _) ?_
    intro a ha hb
    obtain ⟨y, hy, rfl⟩ := List.mem_map.1 ha
    exact hfresh y hy (List.mem_singleton.1 hb)
  · intro y hy
    simp only [Cache.pushed, List.mem_append, List.mem_singleton] at hy ⊢
    rcases hy with hy | rfl
    · exact Nat.lt_succ_of_lt (h.ids_lt y hy)
    · exact Nat.lt_succ_self _
  · intro k2 p2 h2
    simp only [Cache.pushed] at h2 ⊢
    by_cases hkk : k2 = key
    · subst hkk
      rw [mapGet_mapSet_self] at h2
      refine ⟨_, List.mem_append_right _ (List.mem_singleton_self _), Option.some.inj h2, ?_⟩
      intro k1 v hv
      cases hv; rfl
    · rw [mapGet_mapSet_ne _ _ hkk] at h2
      obtain ⟨y, hy, hyid, hkey⟩ := h.cache_li k2 p2 h2
      exact ⟨y, List.mem_append_left _ hy, hyid, hkey⟩
  · intro y hy
    simp only [Cache.pushed, List.mem_append, List.mem_singleton] at hy ⊢
    rcases hy with hy | rfl
    · obtain ⟨k2, h2⟩ := h.li_cache y hy
      refine ⟨k2, ?_⟩
      have hkk : k2 ≠ key := by
        rintro rfl
        rw [hk] at h2; cases h2
      rw [mapGet_mapSet_ne _ _ hkk]; exact h2
    · exact ⟨key, mapGet_mapSet_self _ _ _⟩
  · intro k1 k2 q h1 h2
    simp only [Cache.pushed] at h1 h2
    by_cases e1 : k1 = key <;> by_cases e2 : k2 = key
    · rw [e1, e2]
    · subst e1
      rw [mapGet_mapSet_self] at h1
      rw [mapGet_mapSet_ne _ _ e2, ← h1] at h2
      exact absurd h2 (hold k2)
    · subst e2
      rw [mapGet_mapSet_self] at h2
      rw [mapGet_mapSet_ne _ _ e1, ← h2] at h1
      exact absurd h1 (hold k1)
    · rw [mapGet_mapSet_ne _ _ e1] at h1
      rw [mapGet_mapSet_ne _ _ e2] at h2
      exact h.cache_inj k1 k2 q h1 h2
  · simp only [Cache.pushed, h.used, total_append_singleton, Slot.payload, wrap_wrap_add]

theorem Inv_DelOldest {f f1 : fifo V} (h : Inv calcLen f)
    (he : f.DelOldest calcLen = Outcome.returned f1) : Inv calcLen f1 :=
  Inv_removeElement h he

theorem Inv_Del {f f1 : fifo V} (h : Inv calcLen f) {key : String}
    (he : f.Del calcLen key = Outcome.returned f1) : Inv calcLen f1 := by
  unfold fifo.Del at he
  cases hk : mapGet f.cache key with
  | none => simp only [hk, Outcome.returned.injEq] at he; subst he; exact h
  | some p => rw [hk] at he; exact Inv_removeElement h he

theorem Inv_Set {f f1 : fifo V} (h : Inv calcLen f) {key : String} {value : V}
    (he : f.Set calcLen key value = Outcome.returned f1) : Inv calcLen f1 := by
  cases hk : mapGet f.cache key with
  | none =>
    rw [Set_insert calcLen hk] at he
    split_ifs at he
    · exact Inv_DelOldest (Inv_pushed h hk value) he
    · cases he; exact Inv_pushed h hk value
  | some p =>
    obtain ⟨x, hx, hid, hkey⟩ := h.cache_li key p hk
    have hf : findElem f.li p = some x := hid ▸ findElem_of_mem h.ids_nodup hx
    cases hv : x.Value with
    | other w => rw [Set_update_other h hk hf hv] at he; cases he
    | entry k old =>
      rw [Set_update h hk hf hv] at he
      cases he
      have hmem : ∀ y, y ∈ Remove f.li p ++ [{ id := p, Value := Slot.other value }] ↔
          (y ∈ f.li ∧ y.id ≠ p) ∨ y = { id := p, Value := Slot.other value } := by
        intro y; rw [List.mem_append, mem_Remove h.ids_nodup, List.mem_singleton]
      refine ⟨?_, ?_, ?_, ?_, h.cache_inj, ?_⟩
      · simp only [List.map_append, List.map_cons, List.map_nil]
        refine List.Nodup.append (Remove_ids_nodup h.ids_nodup p) (List.nodup_singleton _) ?_
        intro a ha hb
        obtain ⟨y, hy, rfl⟩ := List.mem_map.1 ha
        exact ((mem_Remove h.ids_nodup).1 hy).2 (List.mem_singleton.1 hb)
      · intro y hy
        rcases (hmem y).1 hy with hy | rfl
        · exact h.ids_lt y hy.1
        · exact hid ▸ h.ids_lt x hx
      · intro k2 p2 h2
        obtain ⟨y, hy, hyid, hkey2⟩ := h.cache_li k2 p2 h2
        by_cases hp : p2 = p
        · subst hp
          refine ⟨_, (hmem _).2 (Or.inr rfl), rfl, ?_⟩
          intro k1 v hv1; cases hv1
        · exact ⟨y, (hmem y).2 (Or.inl ⟨hy, hyid ▸ hp⟩), hyid, hkey2⟩
      · intro y hy
        rcases (hmem y).1 hy with hy | rfl
        · exact h.li_cache y hy.1
        · exact ⟨key, hk⟩
      · have := total_Remove calcLen hf
        simp only [hv, Slot.payload] at this
        simp only [h.used, this, total_append_singleton, Slot.payload, wrap_wrap_sub,
          wrap_wrap_add]
        congr 1
        ring

theorem Inv_step {f f1 : fifo V} (h : Inv calcLen f) (nil : V) {op : Op V}
    (he : f.step calcLen nil op = Outcome.returned f1) : Inv calcLen f1 := by
  cases op with
  | set key value => exact Inv_Set h he
  | get key =>
    simp only [fifo.step] at he
    split at he
    · cases he; exact h
    · cases he
  | del key => exact Inv_Del h he
  | delOldest => exact Inv_DelOldest h he
  | len => cases he; exact h

theorem Inv_run {f f1 : fifo V} (h : Inv calcLen f) (nil : V) {ops : List (Op V)}
    (he : f.run calcLen nil ops = Outcome.returned f1) : Inv calcLen f1 := by
  induction ops generalizing f with
  | nil => cases he; exact h
  | cons op ops ih =>
    simp only [fifo.run] at he
    split at he
    · next f2 h2 => exact ih (Inv_step h nil h2) he
    · cases he

theorem Reachable_inv {f : fifo V} {nil : V} (h : Reachable calcLen nil f) : Inv calcLen f := by
  obtain ⟨mb, cb, ops, hr⟩ := h
  exact Inv_run (Inv_New calcLen mb cb) nil hr

end SetFacts
section Sequences
variable {V : Type} {calcLen : V → Int}

theorem mapGet_all_none {m : List (String × Nat)} (h : ∀ k, mapGet m k = none) : m = [] := by
  cases m with
  | nil => rfl
  | cons p m =>
    have := h p.1
    rw [mapGet_cons, if_pos rfl] at this
    cases this

theorem run_append (nil : V) (f : fifo V) (ops1 ops2 : List (Op V)) :
    f.run calcLen nil (ops1 ++ ops2) =
      match f.run calcLen nil ops1 with
      | Outcome.returned f1 => f1.run calcLen nil ops2
      | Outcome.panicked f1 => Outcome.panicked f1 := by
  induction ops1 generalizing f with
  | nil => rfl
  | cons op ops ih =>
    simp only [List.cons_append, fifo.run]
    cases f.step calcLen nil op with
    | returned f1 => exact ih f1
    | panicked f1 => rfl

/-- Without a capacity limit a `Set` on an absent key only appends. -/
theorem Set_insert_unbounded {f : fifo V} (hmb : f.maxBytes = 0) {key : String}
    (hk : mapGet f.cache key = none) (value : V) :
    f.Set calcLen key value = Outcome.returned (pushed calcLen f key value) := by
  rw [Set_insert calcLen hk, if_neg]
  rw [hmb]; exact fun h => lt_irrefl _ h.1

theorem run_setAll {f : fifo V} (nil : V) (h : Inv calcLen f) (hmb : f.maxBytes = 0)
    (kvs : List (String × V)) (hd : (kvs.map Prod.fst).Nodup)
    (habs : ∀ k ∈ kvs.map Prod.fst, mapGet f.cache k = none) :
    ∃ f1, f.run calcLen nil (setAll kvs) = Outcome.returned f1 ∧ Inv calcLen f1 ∧
      f1.maxBytes = 0 ∧ f1.onEvicted = f.onEvicted ∧ f1.evicted = f.evicted ∧
      f1.li.map Element.Value = f.li.map Element.Value ++ entries kvs := by
  induction kvs generalizing f with
  | nil => exact ⟨f, rfl, h, hmb, rfl, rfl, by simp [entries]⟩
  | cons kv kvs ih =>
    rw [List.map_cons, List.nodup_cons] at hd
    have hk : mapGet f.cache kv.1 = none := habs kv.1 (List.mem_map_of_mem _ (List.mem_cons_self _ _))
    have habs1 : ∀ k ∈ kvs.map Prod.fst, mapGet (pushed calcLen f kv.1 kv.2).cache k = none := by
      intro k hkm
      have hne : k ≠ kv.1 := fun e => hd.1 (e ▸ hkm)
      simp only [pushed, mapGet_mapSet_ne _ _ hne]
      exact habs k (by rw [List.map_cons]; exact List.mem_cons_of_mem _ hkm)
    obtain ⟨f1, hrun, hinv, hmb1, hcb, hev, hli⟩ :=
      ih (Inv_pushed h hk kv.2) (by simpa [pushed] using hmb) hd.2 habs1
    refine ⟨f1, ?_, hinv, hmb1, hcb, hev, ?_⟩
    · simp only [setAll, List.map_cons, fifo.run, fifo.step, Set_insert_unbounded hmb hk]
      exact hrun
    · rw [hli]; simp [pushed, entries]

/-- `DelOldest` when the front element holds a `*entry`. -/
theorem DelOldest_cons (calcLen : V → Int) {f : fifo V} {x : Element V} {t : List (Element V)}
    (hl : f.li = x :: t) {k : String} {v : V} (hv : x.Value = Slot.entry k v) :
    f.DelOldest calcLen = Outcome.returned { f with
      li := t
      usedBytes := wrap (f.usedBytes - calcLen v)
      cache := mapDelete f.cache k
      evicted := if f.onEvicted then f.evicted ++ [(k, v)] else f.evicted } := by
  simp [fifo.DelOldest, fifo.removeElement, Front, hl, findElem_cons, Remove_cons, hv]

theorem run_delOldest {f : fifo V} (nil : V) (h : Inv calcLen f) (es : List (String × V))
    (hli : f.li.map Element.Value = entries es) (i : Nat) (hi : i ≤ es.length) :
    ∃ g, f.run calcLen nil (List.replicate i Op.delOldest) = Outcome.returned g ∧
      Inv calcLen g ∧ g.li.map Element.Value = entries (es.drop i) ∧
      g.evicted = f.evicted ++ (if f.onEvicted then es.take i else []) ∧
      g.onEvicted = f.onEvicted ∧ g.maxBytes = f.maxBytes := by
  induction i generalizing f es with
  | zero => exact ⟨f, rfl, h, by simpa using hli, by simp, rfl, rfl⟩
  | succ i ih =>
    cases es with
    | nil => simp at hi
    | cons e es =>
      cases hl : f.li with
      | nil => rw [hl] at hli; simp [entries] at hli
      | cons x t =>
        rw [hl] at hli
        simp only [entries, List.map_cons, List.cons.injEq] at hli
        have hdel := DelOldest_cons calcLen hl hli.1
        obtain ⟨g, hrun, hinv, hgli, hgev, hgcb, hgmb⟩ :=
          ih (Inv_DelOldest h hdel) es hli.2 (Nat.le_of_succ_le_succ hi)
        refine ⟨g, ?_, hinv, by simpa using hgli, ?_, hgcb, hgmb⟩
        · simp only [List.replicate_succ, fifo.run, fifo.step, hdel]
          exact hrun
        · rw [hgev]
          cases f.onEvicted <;> simp

end Sequences
section Capacity
variable {V : Type} {calcLen : V → Int}

theorem AllEntries_pushed (calcLen : V → Int) {f : fifo V} (h : AllEntries f) (key : String)
    (value : V) :
    AllEntries (pushed calcLen f key value) := by
  intro y hy
  simp only [Cache.pushed, List.mem_append, List.mem_singleton] at hy
  rcases hy with hy | rfl
  · exact h y hy
  · exact ⟨key, value, rfl⟩

/-- A `Set` on a key absent from a store that holds entries only returns, and it returns
within the capacity exactly when the value `fits`. -/
theorem Set_insert_fits_iff {f : fifo V} (h : Inv calcLen f) (hall : AllEntries f)
    (hmb : 0 < f.maxBytes) {key : String} (hk : mapGet f.cache key = none) (value : V) :
    ∃ g, f.Set calcLen key value = Outcome.returned g ∧ Inv calcLen g ∧ AllEntries g ∧
      g.maxBytes = f.maxBytes ∧ (g.usedBytes ≤ g.maxBytes ↔ fits calcLen f value) := by
  have hset := Set_insert calcLen hk value
  by_cases hover : 0 < f.maxBytes ∧ f.maxBytes < wrap (f.usedBytes + calcLen value)
  · rw [if_pos hover] at hset
    cases hl : f.li with
    | nil =>
      have hl1 : (pushed calcLen f key value).li
          = { id := f.nextId, Value := Slot.entry key value } :: [] := by simp [pushed, hl]
      rw [DelOldest_cons calcLen hl1 rfl] at hset
      have hu : f.usedBytes = 0 := by rw [h.used, hl]; exact wrap_zero
      have hzero : wrap (wrap (f.usedBytes + calcLen value) - calcLen value) = 0 := by
        rw [wrap_wrap_sub, hu]
        simpa using wrap_zero
      refine ⟨_, hset, Inv_Set h hset, ?_, rfl, ?_⟩
      · intro y hy; cases hy
      · show wrap (wrap (f.usedBytes + calcLen value) - calcLen value) ≤ f.maxBytes ↔ _
        rw [hzero]
        simp only [fits, hl, or_true, iff_true]
        exact le_of_lt hmb
    | cons x t =>
      obtain ⟨k, v, hv⟩ := hall x (hl ▸ List.mem_cons_self _ _)
      have hl1 : (pushed calcLen f key value).li
          = x :: (t ++ [{ id := f.nextId, Value := Slot.entry key value }]) := by
        simp [pushed, hl]
      rw [DelOldest_cons calcLen hl1 hv] at hset
      refine ⟨_, hset, Inv_Set h hset, ?_, rfl, ?_⟩
      · intro y hy
        exact AllEntries_pushed calcLen hall key value y
          (hl1 ▸ List.mem_cons_of_mem _ hy)
      · show wrap (wrap (f.usedBytes + calcLen value) - calcLen v) ≤ f.maxBytes ↔ _
        rw [wrap_wrap_sub]
        simp only [fits, hl, hv, Slot.payload]
        constructor
        · exact fun hle => Or.inr hle
        · rintro (hle | hle)
          · exact absurd hle (not_le.2 hover.2)
          · exact hle
  · rw [if_neg hover] at hset
    have hle : wrap (f.usedBytes + calcLen value) ≤ f.maxBytes := by
      by_contra hc
      exact hover ⟨hmb, not_le.1 hc⟩
    refine ⟨_, hset, Inv_pushed h hk value, AllEntries_pushed calcLen hall key value, rfl, ?_⟩
    show wrap (f.usedBytes + calcLen value) ≤ f.maxBytes ↔ _
    simp only [fits, hle, true_or]

/-- A run of `Set` calls on absent keys whose values all fit returns within the capacity. -/
theorem run_inserts_fit {f : fifo V} (nil : V) (h : Inv calcLen f) (hall : AllEntries f)
    (hmb : 0 < f.maxBytes) (hb : f.usedBytes ≤ f.maxBytes) (kvs : List (String × V))
    (hfit : insertsFit calcLen f kvs) :
    ∃ g, f.run calcLen nil (setAll kvs) = Outcome.returned g ∧ Inv calcLen g ∧
      AllEntries g ∧ g.maxBytes = f.maxBytes ∧ g.usedBytes ≤ g.maxBytes := by
  induction kvs generalizing f with
  | nil => exact ⟨f, rfl, h, hall, rfl, hb⟩
  | cons kv kvs ih =>
    obtain ⟨hk, hf, hrest⟩ := hfit
    obtain ⟨g1, hg1, hinv, hall1, hmb1, hiff⟩ := Set_insert_fits_iff h hall hmb hk kv.2
    rw [hg1] at hrest
    obtain ⟨g, hg, hginv, hgall, hgmb, hgb⟩ :=
      ih hinv hall1 (hmb1 ▸ hmb) (hiff.2 hf) hrest
    refine ⟨g, ?_, hginv, hgall, hgmb.trans hmb1, hgb⟩
    simp only [setAll, List.map_cons, fifo.run, fifo.step, hg1]
    exact hg

theorem insertsFit_take (calcLen : V → Int) (f : fifo V) (kvs : List (String × V))
    (hfit : insertsFit calcLen f kvs) (n : Nat) : insertsFit calcLen f (kvs.take n) := by
  induction kvs generalizing f n with
  | nil => simpa using hfit
  | cons kv kvs ih =>
    cases n with
    | zero => exact trivial
    | succ n =>
      obtain ⟨hk, hf, hrest⟩ := hfit
      exact ⟨hk, hf, ih _ hrest n⟩

end Capacity
/-! ## The claims -/

section Claims
variable {V : Type}

theorem New_Set (calcLen : V → Int) (cb : Bool) (k : String) (v1 : V) :
    (New 0 cb).Set calcLen k v1 = Outcome.returned (afterSet calcLen cb k v1) := by
  simp [fifo.Set, New, mapGet, mapSet, mapDelete, afterSet]

theorem afterSet_Set (calcLen : V → Int) (cb : Bool) (k : String) (v1 v2 : V) :
    (afterSet calcLen cb k v1).Set calcLen k v2
      = Outcome.returned (afterSetSet calcLen cb k v1 v2) := by
  simp [fifo.Set, mapGet, MoveToBack, findElem, Remove, setValue, afterSet, afterSetSet]

theorem New_Set_Set (calcLen : V → Int) (nil : V) (cb : Bool) (k : String) (v1 v2 : V) :
    (New 0 cb).run calcLen nil [Op.set k v1, Op.set k v2]
      = Outcome.returned (afterSetSet calcLen cb k v1 v2) := by
  simp only [fifo.run, fifo.step, New_Set, afterSet_Set]

/-- C1: on a store with `maxBytes = 0`, `Set(k, v1)` and `Set(k, v2)` return and the `Get(k)`
that follows panics instead of returning `v2`: the update path of `Set` stored `v2` itself
in the list element, and `Get` asserts that the element holds a `*entry`. -/
theorem C1_get_after_update_panics (calcLen : V → Int) (nil : V) (cb : Bool) (k : String)
    (v1 v2 : V) :
    ∃ f1 f2, (New 0 cb).Set calcLen k v1 = Outcome.returned f1 ∧
      f1.Set calcLen k v2 = Outcome.returned f2 ∧ f2.Get nil k = none := by
  refine ⟨_, _, New_Set calcLen cb k v1, afterSet_Set calcLen cb k v1 v2, ?_⟩
  simp [fifo.Get, mapGet, findElem, afterSetSet]

/-- C2: a sequence of calls on a fresh store that does not complete: after `Set(k, v1)` and
`Set(k, v2)` a third `Set(k, v3)` panics at its type assertion, and so does `DelOldest`. -/
theorem C2_repeated_set_panics (calcLen : V → Int) (nil : V) (cb : Bool) (k : String)
    (v1 v2 v3 : V) :
    (New 0 cb).run calcLen nil [Op.set k v1, Op.set k v2, Op.set k v3]
        = Outcome.panicked (afterSetSet calcLen cb k v1 v2) ∧
    (New 0 cb).run calcLen nil [Op.set k v1, Op.set k v2, Op.delOldest]
        = Outcome.panicked { afterSetSet calcLen cb k v1 v2 with li := [] } := by
  constructor
  · simp only [fifo.run, fifo.step, New_Set, afterSet_Set]
    simp [fifo.Set, mapGet, MoveToBack, findElem, Remove, afterSetSet]
  · simp only [fifo.run, fifo.step, New_Set, afterSet_Set]
    simp [fifo.DelOldest, fifo.removeElement, Front, findElem, Remove, afterSetSet]

/-- C3: after `Set` calls on pairwise distinct keys `k1..kn`, in that order, on a fresh store
with `maxBytes = 0` and a callback, every one of `n` successive `DelOldest` calls returns;
after `i` of them the callback has been called with exactly `(k1, v1), ..., (ki, vi)` in that
order, the list and the map hold exactly the remaining keys in insertion order, and after
all `n` the store is empty. -/
theorem C3_fifo_order (calcLen : V → Int) (nil : V) (kvs : List (String × V))
    (hd : (kvs.map Prod.fst).Nodup) :
    ∃ f, (New 0 true).run calcLen nil (setAll kvs) = Outcome.returned f ∧
      f.Len = kvs.length ∧
      ∀ i, i ≤ kvs.length →
        ∃ g, f.run calcLen nil (List.replicate i Op.delOldest) = Outcome.returned g ∧
          g.evicted = kvs.take i ∧
          g.li.map Element.Value = entries (kvs.drop i) ∧
          (∀ k, (mapGet g.cache k).isSome ↔ k ∈ (kvs.drop i).map Prod.fst) ∧
          (i = kvs.length → g.li = [] ∧ g.cache = [] ∧ g.usedBytes = 0) := by
  obtain ⟨f, hrun, hinv, _, hcb, hev, hli⟩ :=
    run_setAll nil (Inv_New calcLen 0 true) rfl kvs hd (fun k _ => rfl)
  have hli1 : f.li.map Element.Value = entries kvs := by simpa [New] using hli
  refine ⟨f, hrun, ?_, ?_⟩
  · have := congrArg List.length hli1
    simpa [entries, fifo.Len] using this
  · intro i hi
    obtain ⟨g, hg, hginv, hgli, hgev, _, _⟩ := run_delOldest nil hinv kvs hli1 i hi
    have hkeys : ∀ k, (mapGet g.cache k).isSome ↔ k ∈ (kvs.drop i).map Prod.fst := by
      intro k
      constructor
      · intro hk
        obtain ⟨p, hp⟩ := Option.isSome_iff_exists.1 hk
        obtain ⟨x, hx, _, hkey⟩ := hginv.cache_li k p hp
        have hxv : x.Value ∈ entries (kvs.drop i) := hgli ▸ List.mem_map_of_mem _ hx
        obtain ⟨kv, hkv, hkve⟩ := List.mem_map.1 hxv
        rw [← hkey kv.1 kv.2 hkve.symm]
        exact List.mem_map_of_mem _ hkv
      · intro hk
        obtain ⟨kv, hkv, rfl⟩ := List.mem_map.1 hk
        have : Slot.entry kv.1 kv.2 ∈ g.li.map Element.Value := by
          rw [hgli]; exact List.mem_map_of_mem (fun kv => Slot.entry kv.1 kv.2) hkv
        obtain ⟨x, hx, hxv⟩ := List.mem_map.1 this
        rw [Inv_key_of_entry hginv hx hxv]; rfl
    refine ⟨g, hg, ?_, hgli, hkeys, ?_⟩
    · rw [hgev, hev, hcb]; simp [New]
    · intro hn
      have hnil : g.li = [] := by
        have := hgli
        rw [hn, List.drop_length] at this
        simpa [entries] using this
      refine ⟨hnil, ?_, ?_⟩
      · apply mapGet_all_none
        intro k
        cases hk : mapGet g.cache k with
        | none => rfl
        | some p =>
          obtain ⟨x, hx, _⟩ := hginv.cache_li k p hk
          rw [hnil] at hx; cases hx
      · rw [hginv.used, hnil]; rfl

/-- C3, at the keys `a, b, c`: the three `DelOldest` calls report `a`, then `b`, then `c`. -/
theorem C3_fifo_order_witness :
    (([("a", 1), ("b", 2), ("c", 3)] : List (String × Nat)).map Prod.fst).Nodup ∧
    ∃ f, (New 0 true).run Int.ofNat 0 (setAll [("a", 1), ("b", 2), ("c", 3)])
        = Outcome.returned f ∧
      ∃ g, f.run Int.ofNat 0 (List.replicate 3 Op.delOldest) = Outcome.returned g ∧
        g.evicted = [("a", 1), ("b", 2), ("c", 3)] ∧ g.li = [] := by
  refine ⟨by decide, ?_⟩
  obtain ⟨f, hf, _, h⟩ := C3_fifo_order Int.ofNat 0 [("a", 1), ("b", 2), ("c", 3)] (by decide)
  obtain ⟨g, hg, hev, _, _, hfin⟩ := h 3 (by decide)
  exact ⟨f, hf, g, hg, by simpa using hev, (hfin rfl).1⟩

/-- The scenario of the refresh on update: `Set(a, v); Set(b, w); Set(a, v1); DelOldest`. -/
theorem refresh_scenario (calcLen : V → Int) (nil : V) (cb : Bool) {a b : String} (hab : a ≠ b)
    (v w v1 : V) :
    (New 0 cb).run calcLen nil [Op.set a v, Op.set b w, Op.set a v1, Op.delOldest] =
      Outcome.returned
        { maxBytes := 0, onEvicted := cb,
          usedBytes := wrap (wrap (wrap (wrap (wrap (calcLen v) + calcLen w) - calcLen v)
            + calcLen v1) - calcLen w),
          li := [{ id := 0, Value := Slot.other v1 }], cache := [(a, 0)], nextId := 2,
          evicted := if cb then [(b, w)] else [] } := by
  have hba : b ≠ a := Ne.symm hab
  have h2 : (afterSet calcLen cb a v).Set calcLen b w
      = Outcome.returned (afterSetAB calcLen cb a b v w) := by
    simp [fifo.Set, afterSet, afterSetAB, mapGet, mapSet, mapDelete, hab, hba]
  simp only [fifo.run, fifo.step, New_Set, h2]
  simp [fifo.Set, afterSetAB, mapGet, hab, hba, MoveToBack, findElem, Remove, setValue,
    fifo.DelOldest, fifo.removeElement, Front, mapDelete]

/-- C4: (1) for distinct keys `a` and `b`, after `Set(a, v); Set(b, w); Set(a, v1)` on a fresh
store with `maxBytes = 0` the next `DelOldest` removes `b` and not `a`: `b` is reported to
the callback and leaves the map, `a` stays in the map and `Len` is 1. (2) In every
reachable store, `Set` on a key that is in the map leaves the list as the other elements,
unchanged and in their former order, followed by that key's element. -/
theorem C4_refresh_on_update (calcLen : V → Int) (nil : V) :
    (∀ (cb : Bool) (a b : String) (v w v1 : V), a ≠ b →
      ∃ g, (New 0 cb).run calcLen nil [Op.set a v, Op.set b w, Op.set a v1, Op.delOldest]
          = Outcome.returned g ∧
        (mapGet g.cache a).isSome ∧ mapGet g.cache b = none ∧ g.Len = 1 ∧
        g.evicted = (if cb then [(b, w)] else [])) ∧
    (∀ (f : fifo V) (key : String) (p : Nat) (value : V), Reachable calcLen nil f →
      mapGet f.cache key = some p →
      ∃ x, (f.Set calcLen key value).store.li = f.li.filter (fun y => y.id != p) ++ [x] ∧
        x.id = p) := by
  constructor
  · intro cb a b v w v1 hab
    refine ⟨_, refresh_scenario calcLen nil cb hab v w v1, ?_, ?_, rfl, rfl⟩
    · simp [mapGet]
    · simp [mapGet, hab]
  · intro f key p value hr hk
    have h := Reachable_inv hr
    obtain ⟨x, hx, hid, _⟩ := h.cache_li key p hk
    have hf : findElem f.li p = some x := hid ▸ findElem_of_mem h.ids_nodup hx
    cases hv : x.Value with
    | entry k old =>
      refine ⟨{ id := p, Value := Slot.other value }, ?_, rfl⟩
      rw [Set_update h hk hf hv, Remove_eq_filter h.ids_nodup]; rfl
    | other w =>
      refine ⟨x, ?_, hid⟩
      rw [Set_update_other h hk hf hv, Remove_eq_filter h.ids_nodup]; rfl

/-- C4, at the keys `a` and `b` and on the store reached by `Set(a, 1); Set(b, 2)`. -/
theorem C4_refresh_on_update_witness :
    ("a" ≠ "b" ∧
      ∃ g, (New 0 true).run Int.ofNat 0
          [Op.set "a" 1, Op.set "b" 2, Op.set "a" 3, Op.delOldest] = Outcome.returned g ∧
        (mapGet g.cache "a").isSome ∧ mapGet g.cache "b" = none ∧ g.Len = 1 ∧
        g.evicted = [("b", 2)]) ∧
    ∃ f : fifo Nat, Reachable Int.ofNat 0 f ∧ mapGet f.cache "a" = some 0 ∧
      ∃ x, (f.Set Int.ofNat "a" 3).store.li = f.li.filter (fun y => y.id != 0) ++ [x] ∧
        x.id = 0 := by
  have hr : Reachable Int.ofNat 0
      (({ maxBytes := 0, onEvicted := true, usedBytes := 3,
          li := [{ id := 0, Value := Slot.entry "a" 1 }, { id := 1, Value := Slot.entry "b" 2 }],
          cache := [("a", 0), ("b", 1)], nextId := 2, evicted := [] }) : fifo Nat) :=
    ⟨0, true, [Op.set "a" 1, Op.set "b" 2], by decide⟩
  exact ⟨⟨by decide, (C4_refresh_on_update Int.ofNat 0).1 true "a" "b" 1 2 3 (by decide)⟩,
    _, hr, by decide, (C4_refresh_on_update Int.ofNat 0).2 _ "a" 0 3 hr (by decide)⟩

/-- C5: in a reachable store with `maxBytes > 0` whose front element holds the entry
`(k, v)`, a `Set` of an absent key that takes `usedBytes` above `maxBytes` returns and
removes exactly the front entry: the list is the other elements followed by the new one, so
`Len` is unchanged, `k` leaves the map, the new key enters it, every other key keeps its
element, and the callback is called once, with `(k, v)`. `usedBytes` becomes the old
`usedBytes + Size(value) - Size(v)` as `int` arithmetic computes it, which is that number
itself when it is in the range of `int`. -/
theorem C5_single_eviction (calcLen : V → Int) (nil : V) (f : fifo V) (key : String)
    (value : V) (x : Element V) (t : List (Element V)) (k : String) (v : V)
    (hr : Reachable calcLen nil f) (hmb : 0 < f.maxBytes) (hl : f.li = x :: t)
    (hv : x.Value = Slot.entry k v) (hk : mapGet f.cache key = none)
    (hover : f.maxBytes < wrap (f.usedBytes + calcLen value)) :
    ∃ g, f.Set calcLen key value = Outcome.returned g ∧
      g.li = t ++ [{ id := f.nextId, Value := Slot.entry key value }] ∧
      g.Len = f.Len ∧
      mapGet g.cache k = none ∧ mapGet g.cache key = some f.nextId ∧
      (∀ k1, k1 ≠ k → k1 ≠ key → mapGet g.cache k1 = mapGet f.cache k1) ∧
      g.usedBytes = wrap (f.usedBytes + calcLen value - calcLen v) ∧
      (InRange (f.usedBytes + calcLen value - calcLen v) →
        g.usedBytes = f.usedBytes + calcLen value - calcLen v) ∧
      g.evicted = (if f.onEvicted then f.evicted ++ [(k, v)] else f.evicted) := by
  have h := Reachable_inv hr
  have hkey : mapGet f.cache k = some x.id :=
    Inv_key_of_entry h (hl ▸ List.mem_cons_self _ _) hv
  have hne : key ≠ k := by
    rintro rfl
    rw [hk] at hkey; cases hkey
  have hl1 : (pushed calcLen f key value).li
      = x :: (t ++ [{ id := f.nextId, Value := Slot.entry key value }]) := by
    simp [pushed, hl]
  have hset := Set_insert calcLen hk value
  rw [if_pos ⟨hmb, hover⟩, DelOldest_cons calcLen hl1 hv] at hset
  have hused : wrap (wrap (f.usedBytes + calcLen value) - calcLen v)
      = wrap (f.usedBytes + calcLen value - calcLen v) := wrap_wrap_sub _ _
  refine ⟨_, hset, rfl, ?_, ?_, ?_, ?_, hused, ?_, rfl⟩
  · simp [fifo.Len, hl]
  · exact mapGet_mapDelete_self _ _
  · show mapGet (mapDelete (mapSet f.cache key f.nextId) k) key = some f.nextId
    rw [mapGet_mapDelete_ne _ hne, mapGet_mapSet_self]
  · intro k1 h1 h2
    show mapGet (mapDelete (mapSet f.cache key f.nextId) k) k1 = mapGet f.cache k1
    rw [mapGet_mapDelete_ne _ h1, mapGet_mapSet_ne _ _ h2]
  · intro hrange
    exact hused.trans (wrap_of_inRange hrange)

/-- C5, at the scenario `maxBytes = 30`, `Set(a, 10 bytes); Set(b, 10 bytes);
Set(c, 15 bytes)`: the third `Set` evicts `a` alone and the store ends with the keys `b`
and `c`, `usedBytes = 25` and `Len() = 2`. -/
theorem C5_single_eviction_witness :
    ∃ f g : fifo Nat,
      (New 30 true).run Int.ofNat 0 [Op.set "a" 10, Op.set "b" 10] = Outcome.returned f ∧
      f.Set Int.ofNat "c" 15 = Outcome.returned g ∧
      g.li.map Element.Value = [Slot.entry "b" 10, Slot.entry "c" 15] ∧
      mapGet g.cache "a" = none ∧ (mapGet g.cache "b").isSome ∧ (mapGet g.cache "c").isSome ∧
      g.usedBytes = 25 ∧ g.Len = 2 ∧ g.evicted = [("a", 10)] := by
  have hrun : (New 30 true).run Int.ofNat 0 [Op.set "a" 10, Op.set "b" 10] = Outcome.returned
      ({ maxBytes := 30, onEvicted := true, usedBytes := 20,
         li := [{ id := 0, Value := Slot.entry "a" 10 }, { id := 1, Value := Slot.entry "b" 10 }],
         cache := [("a", 0), ("b", 1)], nextId := 2, evicted := [] } : fifo Nat) := by decide
  obtain ⟨g, hg, hli, hlen, ha, hc, hrest, _, hused, hev⟩ :=
    C5_single_eviction Int.ofNat 0 _ "c" 15 { id := 0, Value := Slot.entry "a" 10 }
      [{ id := 1, Value := Slot.entry "b" 10 }] "a" 10 ⟨30, true, _, hrun⟩
      (by decide) rfl rfl (by decide) (by decide)
  refine ⟨_, g, hrun, hg, ?_, ha, ?_, ?_, ?_, ?_, ?_⟩
  · rw [hli]; rfl
  · rw [hrest "b" (by decide) (by decide)]; decide
  · rw [hc]; rfl
  · rw [hused (by decide)]; decide
  · rw [hlen]; rfl
  · rw [hev]; rfl

/-- C6, refuted as stated: with `maxBytes = 10`, the `Set` calls `a` (5 bytes), `b`
(5 bytes), `c` (100 bytes) are all on absent keys and all return; the third evicts `a`
alone and returns with `usedBytes = 105 > maxBytes`. -/
theorem C6_counterexample :
    ∃ f g : fifo Nat,
      (New 10 true).run Int.ofNat 0 (setAll [("a", 5), ("b", 5)]) = Outcome.returned f ∧
      mapGet f.cache "c" = none ∧
      f.Set Int.ofNat "c" 100 = Outcome.returned g ∧
      0 < g.maxBytes ∧ g.usedBytes = 105 ∧ ¬ g.usedBytes ≤ g.maxBytes := by
  refine ⟨{ maxBytes := 10, onEvicted := true, usedBytes := 10,
            li := [{ id := 0, Value := Slot.entry "a" 5 }, { id := 1, Value := Slot.entry "b" 5 }],
            cache := [("a", 0), ("b", 1)], nextId := 2, evicted := [] },
          { maxBytes := 10, onEvicted := true, usedBytes := 105,
            li := [{ id := 1, Value := Slot.entry "b" 5 }, { id := 2, Value := Slot.entry "c" 100 }],
            cache := [("b", 1), ("c", 2)], nextId := 3, evicted := [("a", 5)] },
          ?_, ?_, ?_, ?_, ?_, ?_⟩ <;> decide

/-- C6, amended: on a fresh store with `maxBytes > 0`, in a sequence of `Set` calls each on a
key absent at that time and each with a value that fits after the one eviction a `Set` can
make (the new total is within `maxBytes`, or it is without the oldest entry, or the store
is empty), every `Set` returns with `usedBytes <= maxBytes`; and the condition is exact: a
further `Set` on an absent key returns, within the capacity if and only if its value
fits. -/
theorem C6_capacity_bound_when_fits (calcLen : V → Int) (nil : V) (maxBytes : Int) (cb : Bool)
    (kvs : List (String × V)) (hmb : 0 < maxBytes)
    (hfit : insertsFit calcLen (New maxBytes cb) kvs) :
    (∀ n, ∃ g, (New maxBytes cb).run calcLen nil (setAll (kvs.take n)) = Outcome.returned g ∧
      g.usedBytes ≤ g.maxBytes) ∧
    (∃ f, (New maxBytes cb).run calcLen nil (setAll kvs) = Outcome.returned f ∧
      ∀ (key : String) (value : V), mapGet f.cache key = none →
        ∃ g, f.Set calcLen key value = Outcome.returned g ∧
          (g.usedBytes ≤ g.maxBytes ↔ fits calcLen f value)) := by
  have hnew : Inv calcLen (New maxBytes cb) := Inv_New calcLen maxBytes cb
  have hall : AllEntries (New maxBytes cb : fifo V) := fun _ hx => by cases hx
  constructor
  · intro n
    obtain ⟨g, hg, _, _, _, hb⟩ := run_inserts_fit nil hnew hall hmb (le_of_lt hmb)
      (kvs.take n) (insertsFit_take calcLen _ kvs hfit n)
    exact ⟨g, hg, hb⟩
  · obtain ⟨f, hf, hinv, hallf, hmbf, _⟩ :=
      run_inserts_fit nil hnew hall hmb (le_of_lt hmb) kvs hfit
    refine ⟨f, hf, ?_⟩
    intro key value hk
    obtain ⟨g, hg, _, _, _, hiff⟩ :=
      Set_insert_fits_iff hinv hallf (by rw [hmbf]; exact hmb) hk value
    exact ⟨g, hg, hiff⟩

/-- C6 amended, at the run of the specification, `maxBytes = 30` and `Set(a, 10 bytes);
Set(b, 10 bytes); Set(c, 15 bytes)`: the third call evicts `a` and all three calls return
within the capacity, the last with `usedBytes = 25`. -/
theorem C6_capacity_bound_when_fits_witness :
    (0 : Int) < 30 ∧
    insertsFit Int.ofNat (New 30 true) [("a", 10), ("b", 10), ("c", 15)] ∧
    ∃ g : fifo Nat, (New 30 true).run Int.ofNat 0
        (setAll ([("a", 10), ("b", 10), ("c", 15)].take 3)) = Outcome.returned g ∧
      g.usedBytes ≤ g.maxBytes := by
  have hfit : insertsFit Int.ofNat (New 30 true) [("a", 10), ("b", 10), ("c", 15)] := by
    decide
  exact ⟨by decide, hfit,
    (C6_capacity_bound_when_fits Int.ofNat 0 30 true _ (by decide) hfit).1 3⟩

/-- C7: the run `Set(k, v1); Set(k, v2); Del(k)` panics in `Del` and leaves a store whose
list is empty, so that `Len() = 0` and the sum of the sizes of the stored values is 0,
while `usedBytes` is still `Size(v2)`, the `int` that the update left: `usedBytes` is not
that sum unless `Size(v2) = 0`. -/
theorem C7_size_invariant_broken (calcLen : V → Int) (nil : V) (cb : Bool) (k : String)
    (v1 v2 : V) :
    ∃ g, (New 0 cb).run calcLen nil [Op.set k v1, Op.set k v2, Op.del k]
        = Outcome.panicked g ∧
      g.li = [] ∧ g.Len = 0 ∧ total calcLen g.li = 0 ∧ g.usedBytes = wrap (calcLen v2) := by
  refine ⟨{ afterSetSet calcLen cb k v1 v2 with li := [] }, ?_, rfl, rfl, rfl, ?_⟩
  · simp only [fifo.run, fifo.step, New_Set, afterSet_Set]
    simp [fifo.Del, fifo.removeElement, mapGet, findElem, Remove, afterSetSet]
  · show wrap (wrap (wrap (calcLen v1) - calcLen v1) + calcLen v2) = wrap (calcLen v2)
    unfold wrap
    omega

/-- C8: the store reached by `Set(k, v1); Set(k, v2)` has `k` in its map, pointing to the
only element of the list, and that element holds the value `v2` and not an entry: no list
element holds an entry with key `k`. -/
theorem C8_index_without_entry (calcLen : V → Int) (nil : V) (cb : Bool) (k : String)
    (v1 v2 : V) :
    ∃ f, (New 0 cb).run calcLen nil [Op.set k v1, Op.set k v2] = Outcome.returned f ∧
      mapGet f.cache k = some 0 ∧
      f.li = [{ id := 0, Value := Slot.other v2 }] ∧
      ∀ x ∈ f.li, ∀ k1 v, x.Value ≠ Slot.entry k1 v := by
  refine ⟨_, New_Set_Set calcLen nil cb k v1 v2, ?_, rfl, ?_⟩
  · simp [afterSetSet, mapGet]
  · intro x hx k1 v hv
    simp only [afterSetSet, List.mem_singleton] at hx
    subst hx
    cases hv

/-- C9: with a callback, `Del(k)` after `Set(k, v1); Set(k, v2)` panics: the element has
been unlinked from the list, `k` is still in the map and the callback has not been
called. -/
theorem C9_del_after_update_panics (calcLen : V → Int) (nil : V) (k : String) (v1 v2 : V) :
    ∃ f, (New 0 true).run calcLen nil [Op.set k v1, Op.set k v2, Op.del k]
        = Outcome.panicked f ∧
      f.evicted = [] ∧ f.li = [] ∧ mapGet f.cache k = some 0 := by
  refine ⟨{ afterSetSet calcLen true k v1 v2 with li := [] }, ?_, rfl, rfl, ?_⟩
  · simp only [fifo.run, fifo.step, New_Set, afterSet_Set]
    simp [fifo.Del, fifo.removeElement, mapGet, findElem, Remove, afterSetSet]
  · simp [afterSetSet, mapGet]

/-- C10: in a reachable store, whatever `maxBytes` is, `Set(key, value)` on a key that is in
the map and whose element still holds its entry, with value `old`, returns; it removes no
element (`Len` and the element identities are those of before), leaves the map and the
callback log as they were, and sets `usedBytes` to the old `usedBytes - Size(old) +
Size(value)` as `int` arithmetic computes it, with no comparison to `maxBytes`: that is the
number itself whenever it is in the range of `int`. -/
theorem C10_update_bypasses_capacity (calcLen : V → Int) (nil : V) (f : fifo V)
    (key : String) (p : Nat) (old value : V) (hr : Reachable calcLen nil f)
    (hk : mapGet f.cache key = some p) (hget : f.Get nil key = some old) :
    ∃ g, f.Set calcLen key value = Outcome.returned g ∧
      g.Len = f.Len ∧ (g.li.map Element.id).Perm (f.li.map Element.id) ∧
      g.cache = f.cache ∧ g.evicted = f.evicted ∧ g.maxBytes = f.maxBytes ∧
      g.usedBytes = wrap (f.usedBytes - calcLen old + calcLen value) ∧
      (InRange (f.usedBytes - calcLen old + calcLen value) →
        g.usedBytes = f.usedBytes - calcLen old + calcLen value) := by
  have h := Reachable_inv hr
  obtain ⟨x, hx, hid, _⟩ := h.cache_li key p hk
  have hf : findElem f.li p = some x := hid ▸ findElem_of_mem h.ids_nodup hx
  have hperm : ((Remove f.li p ++ [({ id := p, Value := Slot.other value } : Element V)]).map
      Element.id).Perm (f.li.map Element.id) := by
    have h1 := (perm_cons_Remove hf).map Element.id
    rw [List.map_cons, hid] at h1
    have h2 : ((Remove f.li p ++ [({ id := p, Value := Slot.other value } : Element V)]).map
        Element.id).Perm (p :: (Remove f.li p).map Element.id) := by
      rw [List.map_append]
      exact List.perm_append_singleton _ _
    exact h2.trans h1.symm
  cases hv : x.Value with
  | other w => simp [fifo.Get, hk, hf, hv] at hget
  | entry k v =>
    simp only [fifo.Get, hk, hf, hv, Option.map_some', Option.some.injEq] at hget
    subst hget
    have hused : wrap (wrap (f.usedBytes - calcLen v) + calcLen value)
        = wrap (f.usedBytes - calcLen v + calcLen value) := wrap_wrap_add _ _
    refine ⟨_, Set_update h hk hf hv value, ?_, hperm, rfl, rfl, rfl, hused, ?_⟩
    · have := hperm.length_eq
      simpa [fifo.Len] using this
    · intro hrange
      exact hused.trans (wrap_of_inRange hrange)

/-- C10, at `maxBytes = 30`: after `Set(a, 10 bytes)`, `Set(a, 100 bytes)` returns with
`usedBytes = 100 > 30`, `Len() = 1` and no call of the callback. -/
theorem C10_update_bypasses_capacity_witness :
    ∃ f g : fifo Nat, Reachable Int.ofNat 0 f ∧ mapGet f.cache "a" = some 0 ∧
      f.Get 0 "a" = some 10 ∧ f.Set Int.ofNat "a" 100 = Outcome.returned g ∧
      g.Len = 1 ∧ g.evicted = [] ∧ g.maxBytes = 30 ∧ g.usedBytes = 100 := by
  have hr : Reachable Int.ofNat 0
      ({ maxBytes := 30, onEvicted := true, usedBytes := 10,
         li := [{ id := 0, Value := Slot.entry "a" 10 }], cache := [("a", 0)], nextId := 1,
         evicted := [] } : fifo Nat) := ⟨30, true, [Op.set "a" 10], by decide⟩
  obtain ⟨g, hg, hlen, _, _, hev, hmb, _, hused⟩ :=
    C10_update_bypasses_capacity Int.ofNat 0 _ "a" 0 10 100 hr (by decide) (by decide)
  refine ⟨_, g, hr, by decide, by decide, hg, ?_, ?_, ?_, ?_⟩
  · rw [hlen]; rfl
  · rw [hev]
  · rw [hmb]
  · rw [hused (by decide)]; decide

/-- C11: `Del` of a stored key that has been updated panics. After `Set(a, v); Set(b, w);
Set(a, v2)` the call `Del(a)` unlinks the element of `a` and panics at the type assertion:
`a` is still in the map, `usedBytes` has not decreased and the callback has not been
called. -/
theorem C11_del_updated_key_panics (calcLen : V → Int) (nil : V) (v w v2 : V) :
    ∃ f g, (New 0 true).run calcLen nil [Op.set "a" v, Op.set "b" w, Op.set "a" v2]
        = Outcome.returned f ∧
      (mapGet f.cache "a").isSome ∧
      f.Del calcLen "a" = Outcome.panicked g ∧
      (mapGet g.cache "a").isSome ∧ g.usedBytes = f.usedBytes ∧ g.evicted = [] ∧
      g.li = [{ id := 1, Value := Slot.entry "b" w }] := by
  have hab : ("a" : String) ≠ "b" := by decide
  have hba : ("b" : String) ≠ "a" := by decide
  have h2 : (afterSet calcLen true "a" v).Set calcLen "b" w
      = Outcome.returned (afterSetAB calcLen true "a" "b" v w) := by
    simp [fifo.Set, afterSet, afterSetAB, mapGet, mapSet, mapDelete, hab, hba]
  have h3 : (afterSetAB calcLen true "a" "b" v w).Set calcLen "a" v2 = Outcome.returned
      { maxBytes := 0, onEvicted := true,
        usedBytes := wrap (wrap (wrap (wrap (calcLen v) + calcLen w) - calcLen v) + calcLen v2),
        li := [{ id := 1, Value := Slot.entry "b" w }, { id := 0, Value := Slot.other v2 }],
        cache := [("a", 0), ("b", 1)], nextId := 2, evicted := [] } := by
    simp [fifo.Set, afterSetAB, mapGet, MoveToBack, findElem, Remove, setValue]
  refine ⟨
    { maxBytes := 0, onEvicted := true,
      usedBytes := wrap (wrap (wrap (wrap (calcLen v) + calcLen w) - calcLen v) + calcLen v2),
      li := [{ id := 1, Value := Slot.entry "b" w }, { id := 0, Value := Slot.other v2 }],
      cache := [("a", 0), ("b", 1)], nextId := 2, evicted := [] },
    { maxBytes := 0, onEvicted := true,
      usedBytes := wrap (wrap (wrap (wrap (calcLen v) + calcLen w) - calcLen v) + calcLen v2),
      li := [{ id := 1, Value := Slot.entry "b" w }],
      cache := [("a", 0), ("b", 1)], nextId := 2, evicted := [] }, ?_, ?_, ?_, ?_, rfl, rfl, rfl⟩
  · simp only [fifo.run, fifo.step, New_Set, h2, h3]
  · simp [mapGet]
  · simp [fifo.Del, fifo.removeElement, mapGet, findElem, Remove]
  · simp [mapGet]

/-- A run that returns also returns, with the same store, when its `Get` calls are left
out. -/
theorem run_dropGets (calcLen : V → Int) (nil : V) (ops : List (Op V)) (f g : fifo V)
    (h : f.run calcLen nil ops = Outcome.returned g) :
    f.run calcLen nil (dropGets ops) = Outcome.returned g := by
  induction ops generalizing f with
  | nil => exact h
  | cons op ops ih =>
    cases op with
    | get key =>
      simp only [fifo.run, fifo.step] at h
      cases hg : f.Get nil key with
      | none => simp [hg] at h
      | some r =>
        simp only [hg] at h
        simpa [dropGets, Op.isGet] using ih f h
    | set key value =>
      simp only [dropGets, Op.isGet, List.filter_cons, Bool.not_false, if_true, fifo.run] at h ⊢
      cases hs : f.step calcLen nil (Op.set key value) with
      | returned f1 => rw [hs] at h; exact ih f1 h
      | panicked f1 => rw [hs] at h; cases h
    | del key =>
      simp only [dropGets, Op.isGet, List.filter_cons, Bool.not_false, if_true, fifo.run] at h ⊢
      cases hs : f.step calcLen nil (Op.del key) with
      | returned f1 => rw [hs] at h; exact ih f1 h
      | panicked f1 => rw [hs] at h; cases h
    | delOldest =>
      simp only [dropGets, Op.isGet, List.filter_cons, Bool.not_false, if_true, fifo.run] at h ⊢
      cases hs : f.step calcLen nil Op.delOldest with
      | returned f1 => rw [hs] at h; exact ih f1 h
      | panicked f1 => rw [hs] at h; cases h
    | len =>
      simp only [dropGets, Op.isGet, List.filter_cons, Bool.not_false, if_true, fifo.run] at h ⊢
      cases hs : f.step calcLen nil Op.len with
      | returned f1 => rw [hs] at h; exact ih f1 h
      | panicked f1 => rw [hs] at h; cases h

/-- C17: `Get` leaves the store as it is, whatever the store and the key: the list and its
order, the map, `usedBytes`, `maxBytes` and the callback log are those of before, whether
`Get` returns or panics. So a run that returns ends in the same store as the run without
its `Get` calls, and the `DelOldest` calls that follow remove the same keys. -/
theorem C17_get_has_no_side_effect (calcLen : V → Int) (nil : V) :
    (∀ (f : fifo V) (key : String), (f.step calcLen nil (Op.get key)).store = f) ∧
    (∀ (f g : fifo V) (ops : List (Op V)), f.run calcLen nil ops = Outcome.returned g →
      f.run calcLen nil (dropGets ops) = Outcome.returned g) := by
  constructor
  · intro f key
    simp only [fifo.step]
    cases f.Get nil key <;> rfl
  · intro f g ops h
    exact run_dropGets calcLen nil ops f g h

/-- C17, on the run `Set(a, 1); Get(a); Set(b, 2); Get(c); DelOldest()`. -/
theorem C17_get_has_no_side_effect_witness :
    ∃ g : fifo Nat,
      (New 0 true).run Int.ofNat 0
        [Op.set "a" 1, Op.get "a", Op.set "b" 2, Op.get "c", Op.delOldest]
        = Outcome.returned g ∧
      (New 0 true).run Int.ofNat 0 [Op.set "a" 1, Op.set "b" 2, Op.delOldest]
        = Outcome.returned g ∧ g.evicted = [("a", 1)] := by
  have hrun : (New 0 true).run Int.ofNat 0
      [Op.set "a" 1, Op.get "a", Op.set "b" 2, Op.get "c", Op.delOldest]
      = Outcome.returned
        ({ maxBytes := 0, onEvicted := true, usedBytes := 2,
           li := [{ id := 1, Value := Slot.entry "b" 2 }], cache := [("b", 1)], nextId := 2,
           evicted := [("a", 1)] } : fifo Nat) := by decide
  exact ⟨_, hrun, (C17_get_has_no_side_effect Int.ofNat 0).2 _ _ _ hrun, rfl⟩

/-- C18, refuted as stated: with `maxBytes = 10`, after `Set(a, 5 bytes)` the store is not
empty and `Set(a, 100 bytes)`, whose value is larger than `maxBytes`, takes the update
path: no entry is removed, `Len` stays 1 and the callback is not called. -/
theorem C18_counterexample :
    ∃ f g : fifo Nat,
      (New 10 true).run Int.ofNat 0 [Op.set "a" 5] = Outcome.returned f ∧
      f.li ≠ [] ∧ f.maxBytes < Int.ofNat 100 ∧
      f.Set Int.ofNat "a" 100 = Outcome.returned g ∧
      g.evicted = [] ∧ g.Len = f.Len ∧ g.Len = 1 := by
  refine ⟨{ maxBytes := 10, onEvicted := true, usedBytes := 5,
            li := [{ id := 0, Value := Slot.entry "a" 5 }], cache := [("a", 0)], nextId := 1,
            evicted := [] },
          { maxBytes := 10, onEvicted := true, usedBytes := 100,
            li := [{ id := 0, Value := Slot.other 100 }], cache := [("a", 0)], nextId := 1,
            evicted := [] }, ?_, ?_, ?_, ?_, ?_, ?_, ?_⟩ <;> decide

/-- C18, amended: (1) on an empty reachable store with `maxBytes > 0`, `Set(k, v)` with
`Size(v) > maxBytes`, `Size(v)` being an `int`, returns having evicted the entry it
inserted: the list is empty, `usedBytes = 0`, `Get(k)` returns nil and the callback has been
called once more, with `(k, v)`. (2) On a reachable store that is not empty, whose front
element holds its entry `(fk, fv)`, where `k` is not in the map, `usedBytes` is not negative
and `usedBytes + Size(v)` is in the range of `int`, such a `Set` returns having removed that
front entry, which is not `k`: `fk` leaves the map, the callback is called with `(fk, fv)`,
and `k` is stored, at the back of the list, with value `v`. -/
theorem C18_oversized_insert (calcLen : V → Int) (nil : V) :
    (∀ (f : fifo V) (k : String) (v : V), Reachable calcLen nil f → f.li = [] →
      0 < f.maxBytes → f.maxBytes < calcLen v → InRange (calcLen v) →
      ∃ g, f.Set calcLen k v = Outcome.returned g ∧ g.Len = 0 ∧ g.usedBytes = 0 ∧
        g.Get nil k = some nil ∧
        g.evicted = (if f.onEvicted then f.evicted ++ [(k, v)] else f.evicted)) ∧
    (∀ (f : fifo V) (k : String) (v : V) (x : Element V) (t : List (Element V))
      (fk : String) (fv : V), Reachable calcLen nil f →
      f.li = x :: t → x.Value = Slot.entry fk fv → mapGet f.cache k = none →
      0 < f.maxBytes → f.maxBytes < calcLen v →
      0 ≤ f.usedBytes → InRange (f.usedBytes + calcLen v) →
      ∃ g, f.Set calcLen k v = Outcome.returned g ∧ fk ≠ k ∧
        g.li = t ++ [{ id := f.nextId, Value := Slot.entry k v }] ∧
        mapGet g.cache fk = none ∧ mapGet g.cache k = some f.nextId ∧
        g.Get nil k = some v ∧
        g.evicted = (if f.onEvicted then f.evicted ++ [(fk, fv)] else f.evicted)) := by
  constructor
  · intro f k v hr hl hmb hv hrange
    have h := Reachable_inv hr
    have hk : mapGet f.cache k = none := by
      cases hk : mapGet f.cache k with
      | none => rfl
      | some p =>
        obtain ⟨x, hx, _⟩ := h.cache_li k p hk
        rw [hl] at hx; cases hx
    have hu : f.usedBytes = 0 := by rw [h.used, hl]; exact wrap_zero
    have hl1 : (pushed calcLen f k v).li = { id := f.nextId, Value := Slot.entry k v } :: [] := by
      simp [pushed, hl]
    have hover : f.maxBytes < wrap (f.usedBytes + calcLen v) := by
      rw [hu, zero_add, wrap_of_inRange hrange]; exact hv
    have hset := Set_insert calcLen hk v
    rw [if_pos ⟨hmb, hover⟩, DelOldest_cons calcLen hl1 rfl] at hset
    refine ⟨_, hset, rfl, ?_, ?_, rfl⟩
    · show wrap (wrap (f.usedBytes + calcLen v) - calcLen v) = 0
      rw [wrap_wrap_sub, hu, zero_add, sub_self]; exact wrap_zero
    · show fifo.Get nil { pushed calcLen f k v with
          li := []
          usedBytes := wrap ((pushed calcLen f k v).usedBytes - calcLen v)
          cache := mapDelete (pushed calcLen f k v).cache k
          evicted := _ } k = some nil
      simp only [fifo.Get, mapGet_mapDelete_self]
  · intro f k v x t fk fv hr hl hx hk hmb hv hu hrange
    have h := Reachable_inv hr
    have hkey : mapGet f.cache fk = some x.id :=
      Inv_key_of_entry h (hl ▸ List.mem_cons_self _ _) hx
    have hne : fk ≠ k := by
      rintro rfl
      rw [hk] at hkey; cases hkey
    have hl1 : (pushed calcLen f k v).li
        = x :: (t ++ [{ id := f.nextId, Value := Slot.entry k v }]) := by
      simp [pushed, hl]
    have hover : f.maxBytes < wrap (f.usedBytes + calcLen v) := by
      rw [wrap_of_inRange hrange]; linarith
    have hset := Set_insert calcLen hk v
    rw [if_pos ⟨hmb, hover⟩, DelOldest_cons calcLen hl1 hx] at hset
    have hg := Inv_Set h hset
    have hkg : mapGet (mapDelete (mapSet f.cache k f.nextId) fk) k = some f.nextId := by
      rw [mapGet_mapDelete_ne _ (Ne.symm hne), mapGet_mapSet_self]
    refine ⟨_, hset, hne, rfl, mapGet_mapDelete_self _ _, hkg, ?_, rfl⟩
    have hmem : ({ id := f.nextId, Value := Slot.entry k v } : Element V) ∈
        t ++ [{ id := f.nextId, Value := Slot.entry k v }] :=
      List.mem_append_right _ (List.mem_singleton_self _)
    have hfind := findElem_of_mem hg.ids_nodup hmem
    show fifo.Get nil { pushed calcLen f k v with
        li := t ++ [{ id := f.nextId, Value := Slot.entry k v }]
        usedBytes := wrap ((pushed calcLen f k v).usedBytes - calcLen fv)
        cache := mapDelete (pushed calcLen f k v).cache fk
        evicted := _ } k = some v
    simp only [fifo.Get]
    simp only [pushed, hkg]
    simp only [pushed] at hfind
    rw [hfind]
    rfl

/-- C18 amended, at `maxBytes = 10`: `Set(a, 100 bytes)` on the fresh store evicts `a`
itself; after `Set(a, 5 bytes)`, `Set(b, 100 bytes)` evicts `a` and keeps `b`. -/
theorem C18_oversized_insert_witness :
    (∃ g : fifo Nat, (New 10 true).Set Int.ofNat "a" 100 = Outcome.returned g ∧ g.Len = 0 ∧
      g.usedBytes = 0 ∧ g.Get 0 "a" = some 0 ∧ g.evicted = [("a", 100)]) ∧
    (∃ f g : fifo Nat, Reachable Int.ofNat 0 f ∧ f.li ≠ [] ∧
      f.Set Int.ofNat "b" 100 = Outcome.returned g ∧ "a" ≠ "b" ∧
      mapGet g.cache "a" = none ∧ g.Get 0 "b" = some 100 ∧ g.evicted = [("a", 5)]) := by
  have hr0 : Reachable Int.ofNat 0 (New 10 true : fifo Nat) := ⟨10, true, [], rfl⟩
  have hr1 : Reachable Int.ofNat 0
      ({ maxBytes := 10, onEvicted := true, usedBytes := 5,
         li := [{ id := 0, Value := Slot.entry "a" 5 }], cache := [("a", 0)], nextId := 1,
         evicted := [] } : fifo Nat) := ⟨10, true, [Op.set "a" 5], by decide⟩
  constructor
  · obtain ⟨g, hg, hlen, hu, hget, hev⟩ :=
      (C18_oversized_insert Int.ofNat 0).1 (New 10 true) "a" 100 hr0 rfl (by decide) (by decide)
        (by decide)
    exact ⟨g, hg, hlen, hu, hget, by rw [hev]; rfl⟩
  · obtain ⟨g, hg, hne, _, ha, _, hget, hev⟩ :=
      (C18_oversized_insert Int.ofNat 0).2 _ "b" 100 { id := 0, Value := Slot.entry "a" 5 } []
        "a" 5 hr1 rfl rfl (by decide) (by decide) (by decide) (by decide)
        (by decide)
    exact ⟨_, g, hr1, by decide, hg, hne, ha, hget, by rw [hev]; rfl⟩

end Claims

/-! ## The fuel of the heap loops is enough -/

section Fuel
variable {V : Type}

/-- More fuel than `j + 1` does not change the result of the loop of `up`: the loop ends
before the fuel does. -/
theorem heapUpLoop_fuel (fuel : Nat) :
    ∀ (q : queue V) (j : Nat), j < fuel → heapUpLoop fuel q j = heapUpLoop (j + 1) q j := by
  induction fuel using Nat.strong_induction_on with
  | _ fuel ih =>
    intro q j hj
    cases fuel with
    | zero => omega
    | succ fuel =>
      by_cases hi : (j - 1) / 2 = j
      · simp only [heapUpLoop, hi, if_true]
      · have hlt : (j - 1) / 2 < j := by omega
        simp only [heapUpLoop, hi, if_false]
        cases queue.Less q j ((j - 1) / 2) with
        | none => rfl
        | some b =>
          cases b with
          | false => rfl
          | true =>
            cases queue.Swap q ((j - 1) / 2) j with
            | none => rfl
            | some q1 =>
              show heapUpLoop fuel q1 ((j - 1) / 2) = heapUpLoop j q1 ((j - 1) / 2)
              rw [ih fuel (Nat.lt_succ_self _) q1 _ (by omega),
                ih j (by omega) q1 _ hlt]

/-- More fuel than `n - i` does not change the result of the loop of `down`. -/
theorem heapDownLoop_fuel (fuel : Nat) :
    ∀ (q : queue V) (i n : Nat), n - i ≤ fuel →
      heapDownLoop fuel q i n = heapDownLoop (n - i) q i n := by
  induction fuel using Nat.strong_induction_on with
  | _ fuel ih =>
    intro q i n hfuel
    by_cases hn : n ≤ 2 * i + 1
    · have h1 : ∀ k, heapDownLoop k q i n = some (q, i) := by
        intro k
        cases k with
        | zero => rfl
        | succ k => simp only [heapDownLoop, hn, if_true]
      rw [h1, h1]
    · obtain ⟨m, hm⟩ : ∃ m, n - i = m + 1 := ⟨n - i - 1, by omega⟩
      obtain ⟨fuel1, hf1⟩ : ∃ fuel1, fuel = fuel1 + 1 := ⟨fuel - 1, by omega⟩
      subst hf1
      rw [hm]
      simp only [heapDownLoop, hn, if_false]
      cases (if 2 * i + 1 + 1 < n then queue.Less q (2 * i + 1 + 1) (2 * i + 1)
          else some false) with
      | none => rfl
      | some right =>
        simp only []
        have hj : i < (if right = true then 2 * i + 1 + 1 else 2 * i + 1) := by
          split_ifs <;> omega
        generalize (if right = true then 2 * i + 1 + 1 else 2 * i + 1) = j at hj
        cases queue.Less q j i with
        | none => rfl
        | some b =>
          cases b with
          | false => rfl
          | true =>
            cases queue.Swap q i j with
            | none => rfl
            | some q1 =>
              show heapDownLoop fuel1 q1 j n = heapDownLoop m q1 j n
              rw [ih fuel1 (Nat.lt_succ_self _) q1 j n (by omega),
                ih m (by omega) q1 j n (by omega)]

end Fuel

/-! ## The heap of the LFU store when every weight is 0 -/

section HeapFacts
variable {V : Type}

theorem Less_of_zero {q : queue V} (h0 : AllZero q) {i j : Nat} (hi : i < q.length)
    (hj : j < q.length) : queue.Less q i j = some false := by
  obtain ⟨a, ha⟩ : ∃ a, q[i]? = some a := ⟨q[i], List.getElem?_eq_getElem hi⟩
  obtain ⟨b, hb⟩ : ∃ b, q[j]? = some b := ⟨q[j], List.getElem?_eq_getElem hj⟩
  simp [queue.Less, ha, hb, h0 i a ha, h0 j b hb]

theorem heapDownLoop_of_zero {q : queue V} (h0 : AllZero q) (fuel i : Nat) {n : Nat}
    (hn : n ≤ q.length) : heapDownLoop fuel q i n = some (q, i) := by
  cases fuel with
  | zero => rfl
  | succ fuel =>
    unfold heapDownLoop
    by_cases h1 : n ≤ 2 * i + 1
    · simp [h1]
    · have hj1 : 2 * i + 1 < q.length := by omega
      have hi : i < q.length := by omega
      have hr : (if 2 * i + 1 + 1 < n then queue.Less q (2 * i + 1 + 1) (2 * i + 1)
          else some false) = some false := by
        split_ifs with h2
        · exact Less_of_zero h0 (by omega) hj1
        · rfl
      simp only [h1, if_false, hr, Bool.false_eq_true, Less_of_zero h0 hj1 hi]

theorem heapDown_of_zero {q : queue V} (h0 : AllZero q) (i n : Nat)
    (hn : n ≤ q.length) : heapDown q i n = some (q, false) := by
  simp [heapDown, heapDownLoop_of_zero h0 n i hn]

theorem heapUpLoop_of_zero {q : queue V} (h0 : AllZero q) (fuel : Nat) {j : Nat}
    (hj : j < q.length) : heapUpLoop fuel q j = some q := by
  cases fuel with
  | zero => rfl
  | succ fuel =>
    unfold heapUpLoop
    by_cases h1 : (j - 1) / 2 = j
    · simp [h1]
    · have hi : (j - 1) / 2 < q.length := by omega
      simp only [h1, if_false, Less_of_zero h0 hj hi]

theorem heapUp_of_zero {q : queue V} (h0 : AllZero q) (j : Nat) (hj : j < q.length) :
    heapUp q j = some q :=
  heapUpLoop_of_zero h0 (j + 1) hj

theorem heapFix_of_zero {q : queue V} (h0 : AllZero q) {i : Nat} (hi : i < q.length) :
    heapFix q i = some q := by
  simp [heapFix, queue.Len, heapDown_of_zero h0 i _ (le_refl _), heapUp_of_zero h0 i hi]

theorem AllZero_push {q : queue V} (h0 : AllZero q) {x : entry V} (hx : x.weight = 0) :
    AllZero (queue.Push q x) := by
  intro i e he
  simp only [queue.Push] at he
  by_cases hi : i < q.length
  · rw [List.getElem?_append_left hi] at he
    exact h0 i e he
  · rw [List.getElem?_append_right (not_lt.1 hi)] at he
    have := List.mem_iff_getElem?.2 ⟨_, he⟩
    simp only [List.mem_singleton] at this
    subst this; exact hx

theorem heapPush_of_zero {q : queue V} (h0 : AllZero q) {x : entry V} (hx : x.weight = 0) :
    heapPush q x = some (q ++ [{ x with index := q.length }]) := by
  have h1 := AllZero_push h0 hx
  have := heapUp_of_zero h1 (queue.Len (queue.Push q x) - 1) (by simp [queue.Push, queue.Len])
  simpa [heapPush, queue.Push] using this

end HeapFacts

section SwapRemove
variable {V : Type}

theorem dropLast_set_last (l : List (entry V)) (x : entry V) :
    (l.set (l.length - 1) x).dropLast = l.dropLast := by
  apply List.ext_getElem?
  intro j
  simp only [List.getElem?_dropLast, List.getElem?_set, List.length_set]
  split_ifs with h1 h2 h3
  · omega
  · omega
  · rfl
  · rfl

theorem getLast?_set_last {l : List (entry V)} (hl : l ≠ []) (x : entry V) :
    (l.set (l.length - 1) x).getLast? = some x := by
  have hpos : 0 < l.length := List.length_pos.2 hl
  rw [List.getLast?_eq_getElem?, List.length_set, List.getElem?_set, if_pos rfl,
    if_pos (by omega)]

theorem AllZero_set {q : queue V} (h0 : AllZero q) {x : entry V} (hx : x.weight = 0)
    (i : Nat) : AllZero (q.set i x) := by
  intro j e he
  rw [List.getElem?_set] at he
  split_ifs at he with h1 h2
  · cases he; exact hx
  · exact h0 j e he

theorem Swap_of_getElem? {q : queue V} {i j : Nat} {a b : entry V} (ha : q[i]? = some a)
    (hb : q[j]? = some b) :
    queue.Swap q i j = some ((q.set i { b with index := i }).set j { a with index := j }) := by
  simp [queue.Swap, ha, hb]

theorem getLast?_getElem? {q : queue V} {b : entry V} (hb : q.getLast? = some b) :
    q ≠ [] ∧ q[q.length - 1]? = some b := by
  refine ⟨?_, by rw [← List.getLast?_eq_getElem?]; exact hb⟩
  rintro rfl
  simp at hb

theorem AllZero_swapped {q : queue V} (h0 : AllZero q) {i j : Nat} {a b : entry V}
    (ha : q[i]? = some a) (hb : q[j]? = some b) :
    AllZero ((q.set i { b with index := i }).set j { a with index := j }) := by
  have hb0 : ({ b with index := i } : entry V).weight = 0 := h0 j b hb
  have ha0 : ({ a with index := j } : entry V).weight = 0 := h0 i a ha
  exact AllZero_set (AllZero_set h0 hb0 i) ha0 j

/-- The last step of `heap.Pop` and `heap.Remove` after the exchange with the last slot. -/
theorem Pop_swapped {q : queue V} {i : Nat} {a b : entry V} (hb : q.getLast? = some b) :
    queue.Pop ((q.set i { b with index := i }).set (q.length - 1)
        { a with index := q.length - 1 })
      = some ({ a with index := q.length - 1 }, swapRemove q i) := by
  obtain ⟨hne, _⟩ := getLast?_getElem? hb
  have hne1 : q.set i { b with index := i } ≠ [] := by
    intro h
    exact hne (List.length_eq_zero.1 (by simpa using congrArg List.length h))
  have hlast := getLast?_set_last hne1 { a with index := q.length - 1 }
  have hdrop := dropLast_set_last (q.set i { b with index := i })
    { a with index := q.length - 1 }
  simp only [List.length_set] at hlast hdrop
  simp only [queue.Pop, hlast, hdrop, swapRemove, hb]

/-- With weights 0, `heap.Pop` removes slot 0 by exchanging it with the last slot. -/
theorem heapPop_of_zero {q : queue V} (h0 : AllZero q) {a b : entry V} (ha : q[0]? = some a)
    (hb : q.getLast? = some b) :
    heapPop q = some ({ a with index := q.length - 1 }, swapRemove q 0) := by
  obtain ⟨hne, hbn⟩ := getLast?_getElem? hb
  have hlen : ¬ q.length = 0 := fun h => hne (List.length_eq_zero.1 h)
  have hd := heapDown_of_zero (AllZero_swapped h0 ha hbn) 0 (q.length - 1) (by simp)
  simp only [heapPop, queue.Len, if_neg hlen, Swap_of_getElem? ha hbn, hd, Pop_swapped hb]

/-- With weights 0, `heap.Remove` removes slot `i` by exchanging it with the last slot. -/
theorem heapRemove_of_zero {q : queue V} (h0 : AllZero q) {i : Nat} {a b : entry V}
    (ha : q[i]? = some a) (hb : q.getLast? = some b) :
    ∃ r, heapRemove q i = some (r, swapRemove q i) ∧ r.id = a.id ∧ r.key = a.key ∧
      r.value = a.value := by
  obtain ⟨hne, hbn⟩ := getLast?_getElem? hb
  have hlen : ¬ q.length = 0 := fun h => hne (List.length_eq_zero.1 h)
  have hi : i < q.length := (List.getElem?_eq_some.1 ha).1
  by_cases hlast : q.length - 1 = i
  · subst hlast
    rw [hbn] at ha
    cases ha
    refine ⟨a, ?_, rfl, rfl, rfl⟩
    have : swapRemove q (q.length - 1) = q.dropLast := by
      simp only [swapRemove, hb, dropLast_set_last]
    simp only [heapRemove, queue.Len, if_neg hlen, if_true, queue.Pop, hb, this]
  · have hz := AllZero_swapped h0 ha hbn
    have hd := heapDown_of_zero hz i (q.length - 1) (by simp)
    have hu := heapUp_of_zero hz i (by simpa using hi)
    refine ⟨{ a with index := q.length - 1 }, ?_, rfl, rfl, rfl⟩
    simp only [heapRemove, queue.Len, if_neg hlen, if_neg hlast, Swap_of_getElem? ha hbn, hd,
      Bool.false_eq_true, if_false, hu, Pop_swapped hb]

theorem getElem?_swapRemove {q : queue V} {b : entry V} (hb : q.getLast? = some b)
    (i j : Nat) :
    (swapRemove q i)[j]? =
      if j < q.length - 1 then (if i = j then some { b with index := i } else q[j]?)
      else none := by
  simp only [swapRemove, hb, List.getElem?_dropLast, List.length_set, List.getElem?_set]
  split_ifs with h1 h2 h3
  · rfl
  · omega
  · rfl
  · rfl

theorem length_swapRemove {q : queue V} {b : entry V} (hb : q.getLast? = some b) (i : Nat) :
    (swapRemove q i).length = q.length - 1 := by
  simp [swapRemove, hb]

end SwapRemove

/-! ## The invariant of the LFU store is kept by every call -/

section LfuInvariant
variable {V : Type} {calcLen : V → Int}

theorem LInv_New (maxBytes : Int) (onEvicted : Bool) :
    LInv (lfu.New maxBytes onEvicted : lfu V) := by
  constructor <;> simp [lfu.New, mapGet]

theorem LInv_allZero {l : lfu V} (h : LInv l) : AllZero l.queue := h.w0

theorem findEntry_of_inj {q : queue V}
    (hinj : ∀ (i j : Nat) (a b : entry V), q[i]? = some a → q[j]? = some b → a.id = b.id → i = j)
    {i : Nat} {a : entry V} (ha : q[i]? = some a) : findEntry q a.id = some a := by
  cases hf : findEntry q a.id with
  | none =>
    have := List.find?_eq_none.1 hf a (List.mem_iff_getElem?.2 ⟨i, ha⟩)
    simp at this
  | some e =>
    have hid : e.id = a.id := by simpa using List.find?_some hf
    obtain ⟨j, hj⟩ := List.mem_iff_getElem?.1 (List.mem_of_find?_eq_some hf)
    have := hinj j i e a hj ha hid
    subst this
    rw [hj] at ha
    exact ha

theorem exists_getLast? {q : queue V} {i : Nat} {a : entry V} (ha : q[i]? = some a) :
    ∃ b, q.getLast? = some b := by
  have hi : i < q.length := (List.getElem?_eq_some.1 ha).1
  rw [List.getLast?_eq_getElem?]
  exact ⟨q[q.length - 1], List.getElem?_eq_getElem (by omega)⟩

/-- Where an entry of the array left by `swapRemove` comes from. -/
theorem swapRemove_origin {l : lfu V} (h : LInv l) {i : Nat} {b : entry V}
    (hb : l.queue.getLast? = some b) {j : Nat} {e : entry V}
    (he : (swapRemove l.queue i)[j]? = some e) :
    ∃ (j0 : Nat) (e0 : entry V), l.queue[j0]? = some e0 ∧ j0 ≠ i ∧ e.id = e0.id ∧
      e.key = e0.key ∧ e.value = e0.value ∧ e.weight = e0.weight ∧ e.index = j ∧
      j < l.queue.length - 1 ∧ (j0 = j ∨ (j = i ∧ j0 = l.queue.length - 1)) := by
  rw [getElem?_swapRemove hb] at he
  split_ifs at he with h1 h2
  · cases he
    exact ⟨l.queue.length - 1, b, (getLast?_getElem? hb).2, by omega, rfl, rfl, rfl, rfl, h2,
      h1, Or.inr ⟨h2.symm, rfl⟩⟩
  · exact ⟨j, e, he, fun hji => h2 hji.symm, rfl, rfl, rfl, rfl, h.idx j e he, h1, Or.inl rfl⟩

/-- The entries in the other slots stay in the array left by `swapRemove`. -/
theorem swapRemove_keeps {l : lfu V} {i : Nat} {b : entry V}
    (hb : l.queue.getLast? = some b) (hi : i < l.queue.length) {j0 : Nat} {e0 : entry V}
    (h0 : l.queue[j0]? = some e0) (hne : j0 ≠ i) :
    ∃ (j : Nat) (e : entry V), (swapRemove l.queue i)[j]? = some e ∧ e.id = e0.id ∧
      e.key = e0.key ∧ e.value = e0.value := by
  have hj0 : j0 < l.queue.length := (List.getElem?_eq_some.1 h0).1
  by_cases hlast : j0 = l.queue.length - 1
  · have hbn := (getLast?_getElem? hb).2
    rw [← hlast, h0] at hbn
    cases hbn
    have hstep : (swapRemove l.queue i)[i]? = some { b with index := i } := by
      rw [getElem?_swapRemove hb, if_pos (by omega), if_pos rfl]
    exact ⟨i, _, hstep, rfl, rfl, rfl⟩
  · refine ⟨j0, e0, ?_, rfl, rfl, rfl⟩
    rw [getElem?_swapRemove hb, if_pos (by omega), if_neg (fun h => hne h.symm)]
    exact h0

theorem LInv_removed (calcLen : V → Int) {l : lfu V} (h : LInv l) {i : Nat} {a : entry V}
    (ha : l.queue[i]? = some a) {x : entry V} (hx : x.key = a.key) :
    LInv (lfu.removeElement calcLen { l with queue := swapRemove l.queue i } (some x)) := by
  obtain ⟨b, hb⟩ := exists_getLast? ha
  have hi : i < l.queue.length := (List.getElem?_eq_some.1 ha).1
  simp only [lfu.removeElement]
  refine ⟨?_, ?_, ?_, ?_, ?_, ?_⟩
  · intro j e he
    obtain ⟨_, _, _, _, _, _, _, _, hidx, _⟩ := swapRemove_origin h hb he
    exact hidx
  · intro j e he
    obtain ⟨j0, e0, h0, _, _, _, _, hw, _⟩ := swapRemove_origin h hb he
    rw [hw]; exact h.w0 j0 e0 h0
  · intro j1 j2 e1 e2 he1 he2 hid
    obtain ⟨j01, e01, h01, _, hid1, _, _, _, _, hlt1, hor1⟩ := swapRemove_origin h hb he1
    obtain ⟨j02, e02, h02, _, hid2, _, _, _, _, hlt2, hor2⟩ := swapRemove_origin h hb he2
    have := h.ids_inj j01 j02 e01 e02 h01 h02 (by rw [← hid1, ← hid2, hid])
    rcases hor1 with r1 | ⟨r1, s1⟩ <;> rcases hor2 with r2 | ⟨r2, s2⟩ <;> omega
  · intro j e he
    obtain ⟨j0, e0, h0, _, hid, _⟩ := swapRemove_origin h hb he
    rw [hid]; exact h.ids_lt j0 e0 h0
  · intro k p hk
    have hne : k ≠ x.key := by
      rintro rfl
      simp [mapGet_mapDelete_self] at hk
    simp only [mapGet_mapDelete_ne _ hne] at hk
    obtain ⟨j0, e0, h0, hid, hkey⟩ := h.cache_q k p hk
    have hj0 : j0 ≠ i := by
      rintro rfl
      rw [ha] at h0; cases h0
      exact hne (hkey.symm.trans hx.symm)
    obtain ⟨j, e, he, hid1, hkey1, _⟩ := swapRemove_keeps hb hi h0 hj0
    exact ⟨j, e, he, hid1.trans hid, hkey1.trans hkey⟩
  · intro j e he
    obtain ⟨j0, e0, h0, hj0, hid, hkey, _⟩ := swapRemove_origin h hb he
    have hne : e0.key ≠ x.key := by
      intro hk
      have h1 := h.q_cache j0 e0 h0
      have h2 := h.q_cache i a ha
      rw [hk, hx, h2] at h1
      exact hj0 (h.ids_inj j0 i e0 a h0 ha (Option.some.inj h1).symm)
    rw [hkey, hid, mapGet_mapDelete_ne _ hne]
    exact h.q_cache j0 e0 h0

theorem LInv_pushed (calcLen : V → Int) {l : lfu V} (h : LInv l) {key : String}
    (hk : mapGet l.cache key = none) (value : V) : LInv (lfu.pushed calcLen l key value) := by
  have hnew : ∀ (j : Nat) (e : entry V), (lfu.pushed calcLen l key value).queue[j]? = some e →
      (j < l.queue.length ∧ l.queue[j]? = some e) ∨
      (j = l.queue.length ∧ e.id = l.nextId ∧ e.key = key ∧ e.weight = 0 ∧
        e.index = l.queue.length) := by
    intro j e he
    simp only [lfu.pushed] at he
    by_cases hj : j < l.queue.length
    · rw [List.getElem?_append_left hj] at he
      exact Or.inl ⟨hj, he⟩
    · rw [List.getElem?_append_right (not_lt.1 hj)] at he
      have hj0 : j - l.queue.length = 0 := by
        by_contra hc
        rw [List.getElem?_eq_none (by simp; omega)] at he
        cases he
      rw [hj0] at he
      simp only [List.getElem?_cons_zero, Option.some.injEq] at he
      subst he
      exact Or.inr ⟨by omega, rfl, rfl, rfl, rfl⟩
  have hold : ∀ (j : Nat) (e : entry V), l.queue[j]? = some e →
      (lfu.pushed calcLen l key value).queue[j]? = some e := by
    intro j e he
    simp only [lfu.pushed]
    rw [List.getElem?_append_left (List.getElem?_eq_some.1 he).1]
    exact he
  refine ⟨?_, ?_, ?_, ?_, ?_, ?_⟩
  · intro j e he
    rcases hnew j e he with ⟨_, h1⟩ | ⟨h1, _, _, _, h2⟩
    · exact h.idx j e h1
    · rw [h2, h1]
  · intro j e he
    rcases hnew j e he with ⟨_, h1⟩ | ⟨_, _, _, h2, _⟩
    · exact h.w0 j e h1
    · exact h2
  · intro j1 j2 e1 e2 he1 he2 hid
    rcases hnew j1 e1 he1 with ⟨r1, h1⟩ | ⟨r1, s1, _⟩ <;>
      rcases hnew j2 e2 he2 with ⟨r2, h2⟩ | ⟨r2, s2, _⟩
    · exact h.ids_inj j1 j2 e1 e2 h1 h2 hid
    · have := h.ids_lt j1 e1 h1
      omega
    · have := h.ids_lt j2 e2 h2
      omega
    · omega
  · intro j e he
    show e.id < l.nextId + 1
    rcases hnew j e he with ⟨_, h1⟩ | ⟨_, h2, _⟩
    · exact Nat.lt_succ_of_lt (h.ids_lt j e h1)
    · omega
  · intro k p hkp
    simp only [lfu.pushed] at hkp
    by_cases hkk : k = key
    · subst hkk
      rw [mapGet_mapSet_self] at hkp
      have hstep : (lfu.pushed calcLen l k value).queue[l.queue.length]? = some
          { id := l.nextId, key := k, value := value, weight := 0, index := l.queue.length } := by
        simp [lfu.pushed]
      exact ⟨l.queue.length, _, hstep, Option.some.inj hkp, rfl⟩
    · rw [mapGet_mapSet_ne _ _ hkk] at hkp
      obtain ⟨j, e, he, hid, hkey⟩ := h.cache_q k p hkp
      exact ⟨j, e, hold j e he, hid, hkey⟩
  · intro j e he
    rcases hnew j e he with ⟨_, h1⟩ | ⟨_, h2, h3, _⟩
    · have h2 := h.q_cache j e h1
      have hkk : e.key ≠ key := by
        intro hc
        rw [hc, hk] at h2; cases h2
      simp only [lfu.pushed]
      rw [mapGet_mapSet_ne _ _ hkk]; exact h2
    · simp only [lfu.pushed]
      rw [h2, h3]
      exact mapGet_mapSet_self _ _ _

end LfuInvariant

section LfuCalls
variable {V : Type} {calcLen : V → Int}

theorem lfu_Set_insert (calcLen : V → Int) {l : lfu V} (h : LInv l) {key : String}
    (hk : mapGet l.cache key = none) (value : V) :
    l.Set calcLen key value =
      if 0 < l.maxBytes ∧ l.maxBytes < wrap (l.usedBytes + calcLen value) then
        match heapPop (lfu.pushed calcLen l key value).queue with
        | none => none
        | some r => some (lfu.removeElement calcLen
            { lfu.pushed calcLen l key value with queue := r.2 } (some r.1))
      else some (lfu.pushed calcLen l key value) := by
  have hp := heapPush_of_zero h.w0
    (show ({ id := l.nextId, key := key, value := value, weight := 0, index := 0 } :
      entry V).weight = 0 from rfl)
  simp only [lfu.Set, hk, hp, entry.Len, lfu.pushed]

theorem lfu_Set_insert_unbounded (calcLen : V → Int) {l : lfu V} (h : LInv l)
    (hmb : l.maxBytes = 0) {key : String} (hk : mapGet l.cache key = none) (value : V) :
    l.Set calcLen key value = some (lfu.pushed calcLen l key value) := by
  rw [lfu_Set_insert calcLen h hk, if_neg]
  rw [hmb]; exact fun hc => lt_irrefl _ hc.1

theorem lfu_heapPop {l : lfu V} (h : LInv l) {a : entry V} (ha : l.queue[0]? = some a) :
    heapPop l.queue = some ({ a with index := l.queue.length - 1 }, swapRemove l.queue 0) := by
  obtain ⟨b, hb⟩ := exists_getLast? ha
  exact heapPop_of_zero h.w0 ha hb

theorem lfu_DelOldest_nonempty (calcLen : V → Int) {l : lfu V} (h : LInv l) {a : entry V}
    (ha : l.queue[0]? = some a) :
    l.DelOldest calcLen = some (lfu.removeElement calcLen
      { l with queue := swapRemove l.queue 0 } (some { a with index := l.queue.length - 1 })) := by
  have hlen : ¬ l.queue.length = 0 := by
    have := (List.getElem?_eq_some.1 ha).1
    omega
  simp only [lfu.DelOldest, queue.Len, if_neg hlen, lfu_heapPop h ha]

theorem getElem?_assigned (q : queue V) (en : Nat) (value : V) (weight : Int) (j : Nat) :
    (assigned q en value weight)[j]? =
      (q[j]?).map (fun x => if x.id == en then { x with value := value, weight := weight }
        else x) := by
  simp [assigned]

/-- The entries of the array after the assignments of `queue.update`: the slots, keys,
identities and indexes are those of before. -/
theorem assigned_origin {l : lfu V} (h : LInv l) {i : Nat} {a : entry V}
    (ha : l.queue[i]? = some a) (value : V) {j : Nat} {e : entry V}
    (he : (assigned l.queue a.id value a.weight)[j]? = some e) :
    ∃ e0, l.queue[j]? = some e0 ∧ e.id = e0.id ∧ e.key = e0.key ∧ e.index = e0.index ∧
      e.weight = 0 ∧ e.value = (if j = i then value else e0.value) := by
  rw [getElem?_assigned] at he
  cases h0 : l.queue[j]? with
  | none => rw [h0] at he; cases he
  | some e0 =>
    rw [h0] at he
    simp only [Option.map_some', Option.some.injEq] at he
    by_cases hid : e0.id = a.id
    · have hji := h.ids_inj j i e0 a h0 ha hid
      have hb : (e0.id == a.id) = true := by simpa using hid
      simp only [hb, if_true] at he
      subst he
      exact ⟨e0, rfl, rfl, rfl, rfl, h.w0 i a ha, by simp [hji]⟩
    · have hji : j ≠ i := by
        rintro rfl
        rw [ha] at h0; cases h0
        exact hid rfl
      have hb : (e0.id == a.id) = false := by simpa using hid
      simp only [hb, Bool.false_eq_true, if_false] at he
      subst he
      exact ⟨e0, rfl, rfl, rfl, rfl, h.w0 j e0 h0, by simp [hji]⟩

theorem assigned_self {l : lfu V} (h : LInv l) {i : Nat} {a : entry V}
    (ha : l.queue[i]? = some a) : assigned l.queue a.id a.value a.weight = l.queue := by
  apply List.ext_getElem?
  intro j
  rw [getElem?_assigned]
  cases h0 : l.queue[j]? with
  | none => rfl
  | some e0 =>
    simp only [Option.map_some', Option.some.injEq]
    by_cases hid : e0.id = a.id
    · have hji := h.ids_inj j i e0 a h0 ha hid
      subst hji
      rw [ha] at h0; cases h0
      simp
    · have hb : (e0.id == a.id) = false := by simpa using hid
      simp [hb]

theorem LInv_assigned {l : lfu V} (h : LInv l) {i : Nat} {a : entry V}
    (ha : l.queue[i]? = some a) (value : V) (u : Int) :
    LInv { l with queue := assigned l.queue a.id value a.weight, usedBytes := u } := by
  refine ⟨?_, ?_, ?_, ?_, ?_, ?_⟩
  · intro j e he
    obtain ⟨e0, h0, _, _, hidx, _⟩ := assigned_origin h ha value he
    rw [hidx]; exact h.idx j e0 h0
  · intro j e he
    obtain ⟨e0, h0, _, _, _, hw, _⟩ := assigned_origin h ha value he
    exact hw
  · intro j1 j2 e1 e2 he1 he2 hid
    obtain ⟨e01, h01, hid1, _⟩ := assigned_origin h ha value he1
    obtain ⟨e02, h02, hid2, _⟩ := assigned_origin h ha value he2
    exact h.ids_inj j1 j2 e01 e02 h01 h02 (by rw [← hid1, ← hid2, hid])
  · intro j e he
    obtain ⟨e0, h0, hid, _⟩ := assigned_origin h ha value he
    rw [hid]; exact h.ids_lt j e0 h0
  · intro k p hk
    obtain ⟨j, e0, h0, hid, hkey⟩ := h.cache_q k p hk
    have hsome : (assigned l.queue a.id value a.weight)[j]? = some
        (if e0.id == a.id then { e0 with value := value, weight := a.weight } else e0) := by
      rw [getElem?_assigned, h0]; rfl
    refine ⟨j, _, hsome, ?_, ?_⟩
    · split_ifs <;> exact hid
    · split_ifs <;> exact hkey
  · intro j e he
    obtain ⟨e0, h0, hid, hkey, _⟩ := assigned_origin h ha value he
    rw [hid, hkey]; exact h.q_cache j e0 h0

theorem update_of_inv {l : lfu V} (h : LInv l) {i : Nat} {a : entry V}
    (ha : l.queue[i]? = some a) (value : V) :
    queue.update l.queue a.id value a.weight = some (assigned l.queue a.id value a.weight) := by
  have hinv := LInv_assigned h ha value l.usedBytes
  have hsome : (assigned l.queue a.id value a.weight)[i]? = some
      { a with value := value, weight := a.weight } := by
    rw [getElem?_assigned, ha]; simp
  have hfind := findEntry_of_inj hinv.ids_inj hsome
  have hlen : i < (assigned l.queue a.id value a.weight).length := (List.getElem?_eq_some.1 hsome).1
  have hfix := heapFix_of_zero hinv.w0 hlen
  have hidx : a.index = i := h.idx i a ha
  simp only [queue.update]
  show (match findEntry (assigned l.queue a.id value a.weight) a.id with
    | some e => heapFix (assigned l.queue a.id value a.weight) e.index
    | none => none) = _
  simp only at hfind
  rw [hfind]
  simp only [hidx, hfix]

/-- `lfu.Get` on a key of the map returns the value of its entry and leaves the store as it
is. -/
theorem lfu_Get_stored (nil : V) {l : lfu V} (h : LInv l) {key : String} {p : Nat}
    (hk : mapGet l.cache key = some p) :
    ∃ (i : Nat) (e : entry V), l.queue[i]? = some e ∧ e.id = p ∧ e.key = key ∧
      l.Get nil key = some (e.value, l) := by
  obtain ⟨i, e, he, hid, hkey⟩ := h.cache_q key p hk
  refine ⟨i, e, he, hid, hkey, ?_⟩
  have hfind := findEntry_of_inj h.ids_inj he
  rw [hid] at hfind
  have hup := update_of_inv h he e.value
  rw [assigned_self h he, hid] at hup
  simp only [lfu.Get, hk, hfind, hup]

theorem lfu_Get_absent (nil : V) {l : lfu V} {key : String} (hk : mapGet l.cache key = none) :
    l.Get nil key = some (nil, l) := by
  simp only [lfu.Get, hk]

/-- `lfu.Set` on a key of the map. -/
theorem lfu_Set_stored (calcLen : V → Int) {l : lfu V} (h : LInv l) {key : String} {p : Nat}
    (hk : mapGet l.cache key = some p) (value : V) :
    ∃ (i : Nat) (e : entry V), l.queue[i]? = some e ∧ e.id = p ∧ e.key = key ∧
      l.Set calcLen key value = some { l with
        usedBytes := wrap (wrap (l.usedBytes - calcLen e.value) + calcLen value)
        queue := assigned l.queue e.id value e.weight } := by
  obtain ⟨i, e, he, hid, hkey⟩ := h.cache_q key p hk
  refine ⟨i, e, he, hid, hkey, ?_⟩
  have hfind := findEntry_of_inj h.ids_inj he
  have hup := update_of_inv h he value
  rw [hid] at hfind hup
  simp only [lfu.Set, hk, hfind, hup, hid]

/-- `lfu.Del` on a key of the map. -/
theorem lfu_Del_stored (calcLen : V → Int) {l : lfu V} (h : LInv l) {key : String} {p : Nat}
    (hk : mapGet l.cache key = some p) :
    ∃ (i : Nat) (e : entry V), l.queue[i]? = some e ∧ e.id = p ∧ e.key = key ∧
      l.Del calcLen key = some (lfu.removeElement calcLen
        { l with queue := swapRemove l.queue i } (some e)) := by
  obtain ⟨i, e, he, hid, hkey⟩ := h.cache_q key p hk
  refine ⟨i, e, he, hid, hkey, ?_⟩
  have hfind := findEntry_of_inj h.ids_inj he
  rw [hid] at hfind
  obtain ⟨b, hb⟩ := exists_getLast? he
  obtain ⟨r, hr, _⟩ := heapRemove_of_zero h.w0 he hb
  simp only [lfu.Del, hk, hfind, h.idx i e he, hr]

theorem LInv_Set {l l1 : lfu V} (h : LInv l) {key : String} {value : V}
    (he : l.Set calcLen key value = some l1) : LInv l1 := by
  cases hk : mapGet l.cache key with
  | none =>
    rw [lfu_Set_insert calcLen h hk] at he
    have hp := LInv_pushed calcLen h hk value
    split_ifs at he
    · have hq : (lfu.pushed calcLen l key value).queue[0]? ≠ none := by
        simp [lfu.pushed]
      obtain ⟨a, ha⟩ := Option.ne_none_iff_exists'.1 hq
      rw [lfu_heapPop hp ha] at he
      cases he
      exact LInv_removed calcLen hp ha rfl
    · cases he; exact hp
  | some p =>
    obtain ⟨i, e, hq, _, _, hs⟩ := lfu_Set_stored calcLen h hk value
    rw [hs] at he
    cases he
    exact LInv_assigned h hq value _

theorem LInv_Del {l l1 : lfu V} (h : LInv l) {key : String}
    (he : l.Del calcLen key = some l1) : LInv l1 := by
  cases hk : mapGet l.cache key with
  | none => simp only [lfu.Del, hk, Option.some.injEq] at he; subst he; exact h
  | some p =>
    obtain ⟨i, e, hq, _, _, hs⟩ := lfu_Del_stored calcLen h hk
    rw [hs] at he
    cases he
    exact LInv_removed calcLen h hq rfl

theorem LInv_DelOldest {l l1 : lfu V} (h : LInv l)
    (he : l.DelOldest calcLen = some l1) : LInv l1 := by
  cases hq : l.queue[0]? with
  | none =>
    have hlen : l.queue.length = 0 := by
      have := List.getElem?_eq_none_iff.1 hq
      omega
    simp only [lfu.DelOldest, queue.Len, hlen, if_true, Option.some.injEq] at he
    subst he; exact h
  | some a =>
    rw [lfu_DelOldest_nonempty calcLen h hq] at he
    cases he
    exact LInv_removed calcLen h hq rfl

theorem lfu_step_get (calcLen : V → Int) (nil : V) {l : lfu V} (h : LInv l) (key : String) :
    l.step calcLen nil (Op.get key) = some l := by
  cases hk : mapGet l.cache key with
  | none => simp only [lfu.step, lfu_Get_absent nil hk, Option.map_some']
  | some p =>
    obtain ⟨_, _, _, _, _, hg⟩ := lfu_Get_stored nil h hk
    simp only [lfu.step, hg, Option.map_some']

theorem LInv_step {l l1 : lfu V} (h : LInv l) (nil : V) {op : Op V}
    (he : l.step calcLen nil op = some l1) : LInv l1 := by
  cases op with
  | set key value => exact LInv_Set h he
  | get key =>
    rw [lfu_step_get calcLen nil h key] at he
    cases he; exact h
  | del key => exact LInv_Del h he
  | delOldest => exact LInv_DelOldest h he
  | len => cases he; exact h

theorem LInv_run {l l1 : lfu V} (h : LInv l) (nil : V) {ops : List (Op V)}
    (he : l.run calcLen nil ops = some l1) : LInv l1 := by
  induction ops generalizing l with
  | nil => cases he; exact h
  | cons op ops ih =>
    simp only [lfu.run] at he
    split at he
    · next l2 h2 => exact ih (LInv_step h nil h2) he
    · cases he

theorem lfu_Reachable_inv {l : lfu V} {nil : V} (h : lfu.Reachable calcLen nil l) : LInv l := by
  obtain ⟨mb, cb, ops, hr⟩ := h
  exact LInv_run (LInv_New mb cb) nil hr

end LfuCalls

section Unbounded
variable {V : Type} {calcLen : V → Int}

/-- Without a capacity limit, a `Set` on a reachable FIFO store, whether it returns or
panics, removes no element and no key and does not call the callback. -/
theorem Set_unbounded_keeps (calcLen : V → Int) {f : fifo V} (h : Inv calcLen f)
    (hmb : f.maxBytes = 0) (key : String) (value : V) :
    (f.Set calcLen key value).store.evicted = f.evicted ∧
    f.Len ≤ (f.Set calcLen key value).store.Len ∧
    (∀ x ∈ f.li, x.id ∈ (f.Set calcLen key value).store.li.map Element.id) ∧
    (∀ k, (mapGet f.cache k).isSome → (mapGet (f.Set calcLen key value).store.cache k).isSome) := by
  cases hk : mapGet f.cache key with
  | none =>
    rw [Set_insert_unbounded hmb hk]
    refine ⟨rfl, by simp [Outcome.store, pushed, fifo.Len], ?_, ?_⟩
    · intro x hx
      simp only [Outcome.store, pushed, List.map_append, List.mem_append]
      exact Or.inl (List.mem_map_of_mem _ hx)
    · intro k hks
      have hne : k ≠ key := by
        rintro rfl
        rw [hk] at hks; cases hks
      simp only [Outcome.store, pushed, mapGet_mapSet_ne _ _ hne]
      exact hks
  | some p =>
    obtain ⟨x, hx, hid, _⟩ := h.cache_li key p hk
    have hf : findElem f.li p = some x := hid ▸ findElem_of_mem h.ids_nodup hx
    have hlen : ∀ z : Element V, (Remove f.li p ++ [z]).length = f.li.length := by
      intro z
      have := (perm_cons_Remove hf).length_eq
      simp only [List.length_cons] at this
      simp [this]
    have hids : ∀ z : Element V, z.id = p → ∀ y ∈ f.li,
        y.id ∈ (Remove f.li p ++ [z]).map Element.id := by
      intro z hz y hy
      by_cases hyp : y.id = p
      · rw [hyp, ← hz]
        exact List.mem_map_of_mem _ (List.mem_append_right _ (List.mem_singleton_self _))
      · exact List.mem_map_of_mem _
          (List.mem_append_left _ ((mem_Remove h.ids_nodup).2 ⟨hy, hyp⟩))
    cases hv : x.Value with
    | entry k old =>
      rw [Set_update h hk hf hv]
      exact ⟨rfl, le_of_eq (hlen _).symm, hids _ rfl, fun k hks => hks⟩
    | other w =>
      rw [Set_update_other h hk hf hv]
      exact ⟨rfl, le_of_eq (hlen _).symm, hids _ hid, fun k hks => hks⟩

/-- Without a capacity limit, a `Set` on a reachable LFU store returns, removes no entry and
no key and does not call the callback. -/
theorem lfu_Set_unbounded_keeps (calcLen : V → Int) {l : lfu V} (h : LInv l)
    (hmb : l.maxBytes = 0) (key : String) (value : V) :
    ∃ l1, l.Set calcLen key value = some l1 ∧ l1.evicted = l.evicted ∧ l.Len ≤ l1.Len ∧
      l1.maxBytes = 0 ∧
      (∀ k, (mapGet l.cache k).isSome → (mapGet l1.cache k).isSome) := by
  cases hk : mapGet l.cache key with
  | none =>
    refine ⟨_, lfu_Set_insert_unbounded calcLen h hmb hk value, rfl, ?_, hmb, ?_⟩
    · simp [lfu.Len, queue.Len, lfu.pushed]
    · intro k hks
      have hne : k ≠ key := by
        rintro rfl
        rw [hk] at hks; cases hks
      simp only [lfu.pushed, mapGet_mapSet_ne _ _ hne]
      exact hks
  | some p =>
    obtain ⟨i, e, _, _, _, hs⟩ := lfu_Set_stored calcLen h hk value
    refine ⟨_, hs, rfl, ?_, hmb, fun k hks => hks⟩
    simp [lfu.Len, queue.Len, assigned]

theorem lfu_run_setAll (calcLen : V → Int) (nil : V) {l : lfu V} (h : LInv l)
    (hmb : l.maxBytes = 0) (kvs : List (String × V)) (hd : (kvs.map Prod.fst).Nodup)
    (habs : ∀ k ∈ kvs.map Prod.fst, mapGet l.cache k = none) :
    ∃ l1, l.run calcLen nil (setAll kvs) = some l1 ∧ LInv l1 ∧
      l1.Len = l.Len + kvs.length ∧ l1.evicted = l.evicted := by
  induction kvs generalizing l with
  | nil => exact ⟨l, rfl, h, rfl, rfl⟩
  | cons kv kvs ih =>
    rw [List.map_cons, List.nodup_cons] at hd
    have hk : mapGet l.cache kv.1 = none :=
      habs kv.1 (List.mem_map_of_mem _ (List.mem_cons_self _ _))
    have habs1 : ∀ k ∈ kvs.map Prod.fst,
        mapGet (lfu.pushed calcLen l kv.1 kv.2).cache k = none := by
      intro k hkm
      have hne : k ≠ kv.1 := fun e => hd.1 (e ▸ hkm)
      simp only [lfu.pushed, mapGet_mapSet_ne _ _ hne]
      exact habs k (by rw [List.map_cons]; exact List.mem_cons_of_mem _ hkm)
    obtain ⟨l1, hrun, hinv, hlen, hev⟩ :=
      ih (LInv_pushed calcLen h hk kv.2) (by simpa [lfu.pushed] using hmb) hd.2 habs1
    refine ⟨l1, ?_, hinv, ?_, ?_⟩
    · simp only [setAll, List.map_cons, lfu.run, lfu.step,
        lfu_Set_insert_unbounded calcLen h hmb hk]
      exact hrun
    · rw [hlen]
      simp [lfu.Len, queue.Len, lfu.pushed]
      omega
    · rw [hev]; rfl

theorem lfu_run_dropGets (calcLen : V → Int) (nil : V) {l : lfu V} (h : LInv l)
    (ops : List (Op V)) : l.run calcLen nil ops = l.run calcLen nil (dropGets ops) := by
  induction ops generalizing l with
  | nil => rfl
  | cons op ops ih =>
    have hstep : ∀ (o : Op V), o.isGet = false →
        l.run calcLen nil (o :: ops) = l.run calcLen nil (dropGets (o :: ops)) := by
      intro o ho
      simp only [dropGets, List.filter_cons, ho, Bool.not_false, if_true, lfu.run]
      cases hs : l.step calcLen nil o with
      | none => rfl
      | some l1 => exact ih (LInv_step h nil hs)
    cases op with
    | get key =>
      simp only [lfu.run, lfu_step_get calcLen nil h key]
      simpa [dropGets, Op.isGet] using ih h
    | set key value => exact hstep _ rfl
    | del key => exact hstep _ rfl
    | delOldest => exact hstep _ rfl
    | len => exact hstep _ rfl

theorem isMinHeap_of_zero {q : queue V} (h0 : AllZero q) : IsMinHeap q := by
  intro j a b ha hb
  rw [h0 _ a ha, h0 _ b hb]

end Unbounded

/-! ## The claims on missing targets, on the capacity 0 and on the LFU store -/

section LfuClaims
variable {V : Type}

/-- C12: missing targets are no-ops. On any FIFO store, `Del` of a key that is not in the map
returns and leaves the store, callback log included, as it is, and so does `DelOldest`
when the list is empty; on any LFU store with an empty heap array `DelOldest` returns and
leaves the store as it is. -/
theorem C12_missing_targets_are_no_ops (calcLen : V → Int) :
    (∀ (f : fifo V) (k : String), mapGet f.cache k = none →
      f.Del calcLen k = Outcome.returned f) ∧
    (∀ f : fifo V, f.li = [] → f.DelOldest calcLen = Outcome.returned f) ∧
    (∀ l : lfu V, l.queue = [] → l.DelOldest calcLen = some l) := by
  refine ⟨?_, ?_, ?_⟩
  · intro f k hk
    simp only [fifo.Del, hk]
  · intro f hl
    simp only [fifo.DelOldest, Front, hl, List.head?_nil, Option.map_none', fifo.removeElement]
  · intro l hq
    simp only [lfu.DelOldest, queue.Len, hq, List.length_nil, if_true]

/-- C12, on the store left by `Set(a, 1)` for `Del(b)`, and on fresh FIFO and LFU stores for
`DelOldest`. -/
theorem C12_missing_targets_are_no_ops_witness :
    (∃ f : fifo Nat, (New 0 true).run Int.ofNat 0 [Op.set "a" 1] = Outcome.returned f ∧
      mapGet f.cache "b" = none ∧ f.Del Int.ofNat "b" = Outcome.returned f) ∧
    (New 0 true : fifo Nat).DelOldest Int.ofNat = Outcome.returned (New 0 true) ∧
    (lfu.New 0 true : lfu Nat).DelOldest Int.ofNat = some (lfu.New 0 true) := by
  have h := C12_missing_targets_are_no_ops Int.ofNat
  exact ⟨⟨afterSet Int.ofNat true "a" 1, by decide, by decide,
      h.1 (afterSet Int.ofNat true "a" 1) "b" (by decide)⟩,
    h.2.1 (New 0 true) rfl, h.2.2 (lfu.New 0 true) rfl⟩

/-- C13: with `maxBytes = 0` no `Set` removes anything. On a reachable FIFO store with
`maxBytes = 0` a `Set`, whether it returns or panics, leaves the callback log as it is, keeps
every element of the list and every key of the map, and `Len` does not decrease; on a
reachable LFU store with `maxBytes = 0` a `Set` returns with the same guarantees. After
`Set` calls on `n` pairwise distinct keys on a fresh store, FIFO or LFU, `Len() = n` and the
callback has not been called. -/
theorem C13_zero_means_unbounded (calcLen : V → Int) (nil : V) :
    (∀ (f : fifo V) (key : String) (value : V), Reachable calcLen nil f → f.maxBytes = 0 →
      (f.Set calcLen key value).store.evicted = f.evicted ∧
      f.Len ≤ (f.Set calcLen key value).store.Len ∧
      (∀ x ∈ f.li, x.id ∈ (f.Set calcLen key value).store.li.map Element.id) ∧
      (∀ k, (mapGet f.cache k).isSome →
        (mapGet (f.Set calcLen key value).store.cache k).isSome)) ∧
    (∀ (l : lfu V) (key : String) (value : V), lfu.Reachable calcLen nil l → l.maxBytes = 0 →
      ∃ l1, l.Set calcLen key value = some l1 ∧ l1.evicted = l.evicted ∧ l.Len ≤ l1.Len ∧
        (∀ k, (mapGet l.cache k).isSome → (mapGet l1.cache k).isSome)) ∧
    (∀ (cb : Bool) (kvs : List (String × V)), (kvs.map Prod.fst).Nodup →
      (∃ f, (New 0 cb).run calcLen nil (setAll kvs) = Outcome.returned f ∧
        f.Len = kvs.length ∧ f.evicted = []) ∧
      (∃ l, (lfu.New 0 cb).run calcLen nil (setAll kvs) = some l ∧
        l.Len = kvs.length ∧ l.evicted = [])) := by
  refine ⟨?_, ?_, ?_⟩
  · intro f key value hr hmb
    exact Set_unbounded_keeps calcLen (Reachable_inv hr) hmb key value
  · intro l key value hr hmb
    obtain ⟨l1, hs, hev, hlen, _, hkeys⟩ :=
      lfu_Set_unbounded_keeps calcLen (lfu_Reachable_inv hr) hmb key value
    exact ⟨l1, hs, hev, hlen, hkeys⟩
  · intro cb kvs hd
    constructor
    · obtain ⟨f, hrun, _, _, _, hev, hli⟩ :=
        run_setAll nil (Inv_New calcLen 0 cb) rfl kvs hd (fun k _ => rfl)
      refine ⟨f, hrun, ?_, by rw [hev]; rfl⟩
      have := congrArg List.length hli
      simpa [entries, fifo.Len, New] using this
    · obtain ⟨l, hrun, _, hlen, hev⟩ :=
        lfu_run_setAll calcLen nil (LInv_New 0 cb) rfl kvs hd (fun k _ => rfl)
      refine ⟨l, hrun, ?_, by rw [hev]; rfl⟩
      rw [hlen]
      simp [lfu.Len, queue.Len, lfu.New]

/-- C13, with values of 1000, 2000 and 3000 bytes on stores with `maxBytes = 0`. -/
theorem C13_zero_means_unbounded_witness :
    (∃ f : fifo Nat, Reachable Int.ofNat 0 f ∧ f.maxBytes = 0 ∧
      (f.Set Int.ofNat "c" 3000).store.evicted = f.evicted ∧
      f.Len ≤ (f.Set Int.ofNat "c" 3000).store.Len) ∧
    (∃ l l1 : lfu Nat, lfu.Reachable Int.ofNat 0 l ∧ l.maxBytes = 0 ∧
      l.Set Int.ofNat "c" 3000 = some l1 ∧ l1.evicted = l.evicted ∧ l.Len ≤ l1.Len) ∧
    ((([("a", 1000), ("b", 2000), ("c", 3000)] : List (String × Nat)).map Prod.fst).Nodup ∧
      (∃ f : fifo Nat, (New 0 true).run Int.ofNat 0
          (setAll [("a", 1000), ("b", 2000), ("c", 3000)]) = Outcome.returned f ∧
        f.Len = 3 ∧ f.evicted = []) ∧
      (∃ l : lfu Nat, (lfu.New 0 true).run Int.ofNat 0
          (setAll [("a", 1000), ("b", 2000), ("c", 3000)]) = some l ∧
        l.Len = 3 ∧ l.evicted = [])) := by
  have h := C13_zero_means_unbounded Int.ofNat (0 : Nat)
  have hrf : Reachable Int.ofNat 0 (afterSetAB Int.ofNat true "a" "b" 1000 2000) :=
    ⟨0, true, [Op.set "a" 1000, Op.set "b" 2000], by decide⟩
  have hrl : lfu.Reachable Int.ofNat 0
      (lfu.pushed Int.ofNat (lfu.pushed Int.ofNat (lfu.New 0 true) "a" 1000) "b" 2000) :=
    ⟨0, true, [Op.set "a" 1000, Op.set "b" 2000], by decide⟩
  refine ⟨?_, ?_, by decide, ?_⟩
  · obtain ⟨hev, hlen, _, _⟩ := h.1 _ "c" 3000 hrf rfl
    exact ⟨_, hrf, rfl, hev, hlen⟩
  · obtain ⟨l1, hs, hev, hlen, _⟩ := h.2.1 _ "c" 3000 hrl rfl
    exact ⟨_, l1, hrl, rfl, hs, hev, hlen⟩
  · exact h.2.2 true [("a", 1000), ("b", 2000), ("c", 3000)] (by decide)

/-- C14: `lfu.Set` on a stored key does not increase the weight. After `Set(k, v1)` on a
fresh LFU store the entry of `k` has weight 0, and after `Set(k, v2)` it holds `v2` and its
weight is still 0, where the comment on `Set` announces an increased weight. -/
theorem C14_update_keeps_weight (calcLen : V → Int) (cb : Bool) (k : String) (v1 v2 : V) :
    ∃ l1 l2, (lfu.New 0 cb).Set calcLen k v1 = some l1 ∧
      l1.queue = [{ id := 0, key := k, value := v1, weight := 0, index := 0 }] ∧
      l1.Set calcLen k v2 = some l2 ∧
      l2.queue = [{ id := 0, key := k, value := v2, weight := 0, index := 0 }] ∧
      ¬ (∃ e1 ∈ l1.queue, ∃ e2 ∈ l2.queue, e1.key = k ∧ e2.key = k ∧ e1.weight < e2.weight) := by
  have h1 : (lfu.New 0 cb).Set calcLen k v1 = some (lfu.pushed calcLen (lfu.New 0 cb) k v1) :=
    lfu_Set_insert_unbounded calcLen (LInv_New 0 cb) rfl rfl v1
  have hinv := LInv_pushed calcLen (LInv_New 0 cb)
    (show mapGet (lfu.New 0 cb : lfu V).cache k = none from rfl) v1
  have hk : mapGet (lfu.pushed calcLen (lfu.New 0 cb) k v1).cache k = some 0 := by
    simp [lfu.pushed, lfu.New, mapGet, mapSet, mapDelete]
  obtain ⟨i, e, he, hid, hkey, hs⟩ := lfu_Set_stored calcLen hinv hk v2
  have hq : (lfu.pushed calcLen (lfu.New 0 cb) k v1).queue
      = [{ id := 0, key := k, value := v1, weight := 0, index := 0 }] := rfl
  have hq2 : assigned (lfu.pushed calcLen (lfu.New 0 cb) k v1).queue e.id v2 e.weight
      = [{ id := 0, key := k, value := v2, weight := 0, index := 0 }] := by
    rw [hid, hinv.w0 i e he, hq]
    simp [assigned]
  refine ⟨_, _, h1, hq, hs, hq2, ?_⟩
  rintro ⟨e1, he1, e2, he2, _, _, hlt⟩
  rw [hq] at he1
  simp only [hq2] at he2
  rw [List.mem_singleton] at he1 he2
  subst he1 he2
  exact lt_irrefl _ hlt

/-- C15: in a reachable LFU store the heap array has the min-heap property on the weights and
every entry's `index` is its slot; `Get` on a key of the map returns the value of that
key's entry and leaves the whole store (heap array with weights and indexes, map,
`usedBytes`, callback log) as it is; so a run from that store ends as the run without its
`Get` calls does, with the same keys removed by `DelOldest`. -/
theorem C15_lfu_get_leaves_store (calcLen : V → Int) (nil : V) (l : lfu V)
    (hr : lfu.Reachable calcLen nil l) :
    IsMinHeap l.queue ∧
    (∀ (i : Nat) (e : entry V), l.queue[i]? = some e → e.index = i) ∧
    (∀ (key : String) (p : Nat), mapGet l.cache key = some p →
      ∃ e ∈ l.queue, e.id = p ∧ e.key = key ∧ l.Get nil key = some (e.value, l)) ∧
    (∀ ops : List (Op V), l.run calcLen nil ops = l.run calcLen nil (dropGets ops)) := by
  have h := lfu_Reachable_inv hr
  refine ⟨isMinHeap_of_zero h.w0, h.idx, ?_, ?_⟩
  · intro key p hk
    obtain ⟨i, e, he, hid, hkey, hg⟩ := lfu_Get_stored nil h hk
    exact ⟨e, List.mem_iff_getElem?.2 ⟨i, he⟩, hid, hkey, hg⟩
  · intro ops
    exact lfu_run_dropGets calcLen nil h ops

/-- C15, on the store left by `Set(a, 1); Set(b, 2); Set(c, 3)`: `Get(b)` returns 2 and the
runs `Get(b); Get(b); DelOldest(); Get(c); DelOldest()` and `DelOldest(); DelOldest()` end in
the same store. -/
theorem C15_lfu_get_leaves_store_witness :
    ∃ l : lfu Nat, lfu.Reachable Int.ofNat 0 l ∧ l.Get 0 "b" = some (2, l) ∧
      l.run Int.ofNat 0 [Op.get "b", Op.get "b", Op.delOldest, Op.get "c", Op.delOldest]
        = l.run Int.ofNat 0 [Op.delOldest, Op.delOldest] := by
  have hr : lfu.Reachable Int.ofNat 0
      (lfu.pushed Int.ofNat (lfu.pushed Int.ofNat (lfu.pushed Int.ofNat (lfu.New 0 true) "a" 1)
        "b" 2) "c" 3) :=
    ⟨0, true, [Op.set "a" 1, Op.set "b" 2, Op.set "c" 3], by decide⟩
  have h := C15_lfu_get_leaves_store Int.ofNat 0 _ hr
  refine ⟨_, hr, by decide, ?_⟩
  exact h.2.2.2 [Op.get "b", Op.get "b", Op.delOldest, Op.get "c", Op.delOldest]

/-- C16: on a reachable LFU store that is not empty, `DelOldest` returns and removes the
entry `e` of slot 0 and no other: `e` leaves the map and the heap array, every other entry
stays with its key, value and weight, no entry left weighs less than `e`, `Len` decreases
by one, and the callback, if set, is called once, with `(e.key, e.value)`. -/
theorem C16_lfu_delOldest_pops_minimum (calcLen : V → Int) (nil : V) (l : lfu V)
    (hr : lfu.Reachable calcLen nil l) (hne : l.queue ≠ []) :
    ∃ e l1, l.queue[0]? = some e ∧ l.DelOldest calcLen = some l1 ∧
      mapGet l.cache e.key = some e.id ∧ mapGet l1.cache e.key = none ∧
      (∀ k, k ≠ e.key → mapGet l1.cache k = mapGet l.cache k) ∧
      (∀ x ∈ l1.queue, x.id ≠ e.id ∧ e.weight ≤ x.weight) ∧
      (∀ x ∈ l.queue, x.id ≠ e.id →
        ∃ y ∈ l1.queue, y.id = x.id ∧ y.key = x.key ∧ y.value = x.value ∧
          y.weight = x.weight) ∧
      l1.Len + 1 = l.Len ∧
      l1.evicted = (if l.onEvicted then l.evicted ++ [(e.key, e.value)] else l.evicted) := by
  have h := lfu_Reachable_inv hr
  have hpos : 0 < l.queue.length := List.length_pos.2 hne
  have he : l.queue[0]? = some l.queue[0] := List.getElem?_eq_getElem hpos
  obtain ⟨b, hb⟩ := exists_getLast? he
  have hdel := lfu_DelOldest_nonempty calcLen h he
  have hinv1 := LInv_removed calcLen h he
    (show ({ l.queue[0] with index := l.queue.length - 1 } : entry V).key = l.queue[0].key
      from rfl)
  refine ⟨l.queue[0], _, he, hdel, h.q_cache 0 _ he, ?_, ?_, ?_, ?_, ?_, rfl⟩
  · exact mapGet_mapDelete_self _ _
  · intro k hk
    exact mapGet_mapDelete_ne _ hk
  · intro x hx
    obtain ⟨j, hj⟩ := List.mem_iff_getElem?.1 hx
    have hj1 : (swapRemove l.queue 0)[j]? = some x := hj
    obtain ⟨j0, e0, h0, hj0, hid, _, _, hw, _⟩ := swapRemove_origin h hb hj1
    refine ⟨?_, ?_⟩
    · intro hc
      exact hj0 (h.ids_inj j0 0 e0 _ h0 he (hid.symm.trans hc))
    · rw [h.w0 0 _ he, hw, h.w0 j0 e0 h0]
  · intro x hx hxid
    obtain ⟨j0, h0⟩ := List.mem_iff_getElem?.1 hx
    have hj0 : j0 ≠ 0 := by
      rintro rfl
      rw [he] at h0
      exact hxid (by cases h0; rfl)
    obtain ⟨j, y, hy, hid, hkey, hval⟩ := swapRemove_keeps hb hpos h0 hj0
    have hy1 : y ∈ swapRemove l.queue 0 := List.mem_iff_getElem?.2 ⟨j, hy⟩
    refine ⟨y, hy1, hid, hkey, hval, ?_⟩
    obtain ⟨_, e0, h00, _, _, _, _, hw, _⟩ := swapRemove_origin h hb hy
    rw [hw, h.w0 _ e0 h00, h.w0 j0 x h0]
  · show (swapRemove l.queue 0).length + 1 = l.queue.length
    rw [length_swapRemove hb]
    omega

/-- C16, on the store left by `Set(a, 1); Set(b, 2); Set(c, 3)`: `DelOldest` removes `a`. -/
theorem C16_lfu_delOldest_pops_minimum_witness :
    ∃ l l1 : lfu Nat, lfu.Reachable Int.ofNat 0 l ∧ l.queue ≠ [] ∧
      l.DelOldest Int.ofNat = some l1 ∧ l1.Len + 1 = l.Len ∧ l1.evicted = [("a", 1)] := by
  have hr : lfu.Reachable Int.ofNat 0
      (lfu.pushed Int.ofNat (lfu.pushed Int.ofNat (lfu.pushed Int.ofNat (lfu.New 0 true) "a" 1)
        "b" 2) "c" 3) :=
    ⟨0, true, [Op.set "a" 1, Op.set "b" 2, Op.set "c" 3], by decide⟩
  obtain ⟨e, l1, he, hdel, _, _, _, _, _, hlen, hev⟩ :=
    C16_lfu_delOldest_pops_minimum Int.ofNat 0 _ hr (by decide)
  have he0 : e = { id := 0, key := "a", value := 1, weight := 0, index := 0 } := by
    have : (lfu.pushed Int.ofNat (lfu.pushed Int.ofNat (lfu.pushed Int.ofNat
        (lfu.New 0 true) "a" 1) "b" 2) "c" 3).queue[0]?
        = some { id := 0, key := "a", value := 1, weight := 0, index := 0 } := by decide
    rw [this] at he
    exact (Option.some.inj he).symm
  refine ⟨_, l1, hr, by decide, hdel, hlen, ?_⟩
  rw [hev, he0]; rfl

/-- C19: in every LFU store reachable from `lfu.New` by `Set`, `Get`, `Del` and `DelOldest`
calls, every entry of the heap array has weight 0, and every key of the map points to such
an entry. -/
theorem C19_lfu_weights_stay_zero (calcLen : V → Int) (nil : V) (l : lfu V)
    (hr : lfu.Reachable calcLen nil l) :
    (∀ e ∈ l.queue, e.weight = 0) ∧
    (∀ (k : String) (p : Nat), mapGet l.cache k = some p →
      ∃ e ∈ l.queue, e.id = p ∧ e.key = k ∧ e.weight = 0) := by
  have h := lfu_Reachable_inv hr
  constructor
  · intro e he
    obtain ⟨i, hi⟩ := List.mem_iff_getElem?.1 he
    exact h.w0 i e hi
  · intro k p hk
    obtain ⟨i, e, he, hid, hkey⟩ := h.cache_q k p hk
    exact ⟨e, List.mem_iff_getElem?.2 ⟨i, he⟩, hid, hkey, h.w0 i e he⟩

/-- C19, on the store left by `Set(a, 1); Set(b, 2); Get(a); Get(a); Set(b, 5); Set(c, 3);
Del(c); Get(b)`. -/
theorem C19_lfu_weights_stay_zero_witness :
    ∃ l : lfu Nat,
      (lfu.New 0 true).run Int.ofNat 0
        [Op.set "a" 1, Op.set "b" 2, Op.get "a", Op.get "a", Op.set "b" 5, Op.set "c" 3,
          Op.del "c", Op.get "b"] = some l ∧
      l.Len = 2 ∧ ∀ e ∈ l.queue, e.weight = 0 := by
  have hrun : (lfu.New 0 true).run Int.ofNat 0
      [Op.set "a" 1, Op.set "b" 2, Op.get "a", Op.get "a", Op.set "b" 5, Op.set "c" 3,
        Op.del "c", Op.get "b"] = some
      ({ maxBytes := 0, onEvicted := true, usedBytes := 6,
         queue := [{ id := 0, key := "a", value := 1, weight := 0, index := 0 },
                   { id := 1, key := "b", value := 5, weight := 0, index := 1 }],
         cache := [("a", 0), ("b", 1)], nextId := 3, evicted := [("c", 3)] } : lfu Nat) := by
    decide
  exact ⟨_, hrun, rfl,
    (C19_lfu_weights_stay_zero Int.ofNat 0 _ ⟨0, true, _, hrun⟩).1⟩

end LfuClaims

end Cache
